import Mathlib

/-!
# Multibyte character utilities of Readline (`mbutil.c`, `shell.c`)

A shallow embedding of the UTF-8 decoder, the boundary scanners, the offset
adjuster, the comparator and the width cache of `mbutil.c` and of the quoting
function of `shell.c`, and the properties proved of them.

Conventions of the embedding.

* A C string is the list of its bytes before the terminating NUL; the
  terminator itself is implicit, so `strlen` is the length of the list and
  reading the byte at index `strlen` gives 0.  `string + point` is
  `string.drop point`.
* `int` and `size_t` values are integers; the strings considered are shorter
  than `INT_MAX`, so no arithmetic of the source wraps.
* `mbstate_t` is an integer (`*ps = 0` in the source); its first byte,
  `shift_state.mbcs[0]`, is its value modulo 256.
  An offset past the terminator points outside the string; the rest of
  the string there is read as empty.
* Loops are recursions on a fuel argument that yield `none` when the fuel is
  used up; a theorem that states a result of a scan states it as `some`
  value, so it also shows that the fuel supplied is enough.
* The local `wchar_t wc` of the scanners is threaded through the decoding
  calls: a call that stores no wide character leaves the cell as it was.
* The console behind the width cache is a state of any type with the three
  services the source calls; every call made to it is recorded, so that the
  number of times a character is written can be counted.
-/

namespace Readline

/-! ## Services of the host -/

/-- Services that `mbutil.c` calls and does not define. -/
structure Platform where
  /-- The call `MultiByteToWideChar (CP_UTF8, MB_ERR_INVALID_CHARS, bytes, len, pwc, 1)`
  on the given bytes: `none` when it returns 0, otherwise the wide character
  stored through `pwc`. -/
  MultiByteToWideChar : List Nat → Option Nat
  /-- The call `WideCharToMultiByte (CP_UTF8, 0, &wc, 1, dst, mb_max, NULL, &invalid_char)`
  for `wc` and `mb_max`: the bytes written to `dst` (the return value is their
  number) and the value left in `invalid_char`. -/
  WideCharToMultiByte : Nat → Nat → List Nat × Bool
  /-- The value of `MB_CUR_MAX`. -/
  MB_CUR_MAX : Nat
  /-- The width function behind the `WCWIDTH` use of the scanners. -/
  WCWIDTH : Nat → Int

/-- The wide character of a well-formed UTF-8 sequence of one to three bytes
that fits one 16-bit `wchar_t`; `none` for every other byte list. -/
def utf8Decode : List Nat → Option Nat
  | [b0] => if b0 < 0x80 then some b0 else none
  | [b0, b1] =>
    if 0xC2 ≤ b0 ∧ b0 ≤ 0xDF ∧ 0x80 ≤ b1 ∧ b1 ≤ 0xBF then
      some ((b0 - 0xC0) * 64 + (b1 - 0x80))
    else none
  | [b0, b1, b2] =>
    if 0xE0 ≤ b0 ∧ b0 ≤ 0xEF ∧ 0x80 ≤ b1 ∧ b1 ≤ 0xBF ∧ 0x80 ≤ b2 ∧ b2 ≤ 0xBF
        ∧ (b0 = 0xE0 → 0xA0 ≤ b1) ∧ (b0 = 0xED → b1 ≤ 0x9F) then
      some ((b0 - 0xE0) * 4096 + (b1 - 0x80) * 64 + (b2 - 0x80))
    else none
  | _ => none

/-- The UTF-8 bytes of one 16-bit wide character (an unpaired surrogate is
written as U+FFFD). -/
def utf8Encode (wc : Nat) : List Nat :=
  if wc < 0x80 then [wc]
  else if wc < 0x800 then [0xC0 + wc / 64, 0x80 + wc % 64]
  else if 0xD800 ≤ wc ∧ wc ≤ 0xDFFF then [0xEF, 0xBF, 0xBD]
  else [0xE0 + wc / 4096, 0x80 + wc / 64 % 64, 0x80 + wc % 64]

/-- A host whose conversion services follow UTF-8 strictly, with a given
width function.  It is the concrete host of the worked examples. -/
def utf8Host (width : Nat → Int) : Platform where
  MultiByteToWideChar := utf8Decode
  WideCharToMultiByte := fun wc mb_max =>
    if (utf8Encode wc).length ≤ mb_max then (utf8Encode wc, false) else ([], false)
  MB_CUR_MAX := 4
  WCWIDTH := width

/-- A host follows UTF-8 when `MB_CUR_MAX` exceeds 1 and its converter agrees
with `utf8Decode` on the inputs of one and of two bytes, the only ones the
decoder hands to it. -/
def FollowsUtf8 (P : Platform) : Prop :=
  1 < P.MB_CUR_MAX
  ∧ (∀ b0 : Nat, P.MultiByteToWideChar [b0] = utf8Decode [b0])
  ∧ (∀ b0 b1 : Nat, P.MultiByteToWideChar [b0, b1] = utf8Decode [b0, b1])

/-- A width function: 0 on the combining diacritical marks U+0300..U+036F,
1 elsewhere. -/
def combiningWidth (wc : Nat) : Int :=
  if 0x300 ≤ wc ∧ wc ≤ 0x36F then 0 else 1

/-- The byte `s[i]` of a C string; index `strlen s` holds the terminator. -/
def byteAt (s : List Nat) (i : Nat) : Nat := s.getD i 0

/-- The C library function `strlen` on the bytes before the terminator. -/
def strlen (s : List Nat) : Nat := s.length

/-! ## Decoder -/

/-- What one decoding call leaves behind: the returned value, the wide
character cell `*pwc` and the shift state `*ps`. -/
structure Decoded where
  ret : Int
  wc : Nat
  ps : Nat
deriving DecidableEq

/-- The function `__mbrtowc_utf8 (pwc, s, n, ps, mb_max)` for a non-null `s`; `pwc` and `ps`
are the contents of the two cells before the call. -/
def __mbrtowc_utf8 (P : Platform) (pwc : Nat) (s : List Nat) (n : Nat) (ps : Nat)
    (mb_max : Nat) : Decoded :=
  if n = 0 then ⟨-2, pwc, ps⟩
  else if byteAt s 0 = 0 then ⟨0, 0, 0⟩
  else if 1 < mb_max ∧ ps % 256 ≠ 0 then
    match P.MultiByteToWideChar [ps % 256, byteAt s 0] with
    | none => ⟨-1, pwc, 0⟩
    | some w => ⟨2, w, 0⟩
  else if 1 < mb_max ∧ 0xC2 ≤ byteAt s 0 ∧ byteAt s 0 ≤ 0xF4 then
    if n < 2 then ⟨-2, pwc, byteAt s 0⟩
    else
      match P.MultiByteToWideChar [byteAt s 0, byteAt s 1] with
      | none => ⟨-1, pwc, 0⟩
      | some w => ⟨2, w, 0⟩
  else
    match P.MultiByteToWideChar [byteAt s 0] with
    | none => ⟨-1, pwc, 0⟩
    | some w => ⟨1, w, 0⟩

/-- The function `_rl_utf8_mbrtowc (pwc, s, n, ps)` with non-null `pwc` and `ps`. -/
def _rl_utf8_mbrtowc (P : Platform) (pwc : Nat) (s : List Nat) (n : Nat) (ps : Nat) : Decoded :=
  __mbrtowc_utf8 P pwc s n ps P.MB_CUR_MAX

/-- The function `_rl_utf8_mbrlen (s, n, ps)` with non-null `ps`; the wide character goes to
a local cell that starts as 0. -/
def _rl_utf8_mbrlen (P : Platform) (s : List Nat) (n : Nat) (ps : Nat) : Decoded :=
  __mbrtowc_utf8 P 0 s n ps P.MB_CUR_MAX

/-- The function `__wcrtomb_utf8 (dst, wc, mb_max)`: the returned value and the bytes put
in `dst`. -/
def __wcrtomb_utf8 (P : Platform) (wc : Nat) (mb_max : Nat) : Int × List Nat :=
  let r := P.WideCharToMultiByte wc mb_max
  if r.1.length = 0 ∨ r.2 = true then (-1, r.1) else ((r.1.length : Int), r.1)

/-- The function `_rl_utf8_wcrtomb (dst, wc, ps)`; the value `(size_t)-1` is written -1. -/
def _rl_utf8_wcrtomb (P : Platform) (wc : Nat) : Int × List Nat :=
  __wcrtomb_utf8 P wc P.MB_CUR_MAX

/-- Modelled from the spec: the header `rlmbutil.h` that maps `mbrtowc` is not
among the sources; the spec has the bundled UTF-8 decoder substituted for the
host primitive, so `mbrtowc` is `_rl_utf8_mbrtowc`. -/
def mbrtowc (P : Platform) (pwc : Nat) (s : List Nat) (n : Nat) (ps : Nat) : Decoded :=
  _rl_utf8_mbrtowc P pwc s n ps

/-- Modelled from the spec: the header `rlmbutil.h` that maps `mbrlen` is not
among the sources; as for `mbrtowc`, it is the bundled `_rl_utf8_mbrlen`. -/
def mbrlen (P : Platform) (s : List Nat) (n : Nat) (ps : Nat) : Decoded :=
  _rl_utf8_mbrlen P s n ps

/-- Modelled from the spec: the macro `MB_INVALIDCH` of the absent header
`rlmbutil.h`.  It holds of the two negative sentinels, `(size_t)-1` (invalid)
and `(size_t)-2` (incomplete), which the source treats alike: "bytes are
invalid or shorted to compose multibyte char". -/
def MB_INVALIDCH (x : Int) : Bool := x == -1 || x == -2

/-- Modelled from the spec: the macro `MB_NULLWCH` of the absent header
`rlmbutil.h`; it holds of the value 0, returned at the terminator. -/
def MB_NULLWCH (x : Int) : Bool := x == 0

/-! ## Offset adjuster -/

/-- The loop `while (pos < point)` of `_rl_adjust_point`: the final `pos` and
shift state. -/
def adjustLoop (P : Platform) (s : List Nat) (length point : Int) :
    Nat → Int → Nat → Option (Int × Nat)
  | 0, _, _ => none
  | fuel + 1, pos, ps =>
    if pos < point then
      let r := mbrlen P (s.drop pos.toNat) (length - pos).toNat ps
      if MB_INVALIDCH r.ret then adjustLoop P s length point fuel (pos + 1) 0
      else if MB_NULLWCH r.ret then adjustLoop P s length point fuel (pos + 1) r.ps
      else adjustLoop P s length point fuel (pos + r.ret) r.ps
    else some (pos, ps)

/-- The function `_rl_adjust_point (string, point, ps)` with a non-null `ps`: the returned
value and the shift state afterwards. -/
def _rl_adjust_point (P : Platform) (s : List Nat) (point : Int) (ps : Nat) :
    Option (Int × Nat) :=
  let length : Int := strlen s
  if point < 0 then some (-1, ps)
  else if length < point then some (-1, ps)
  else
    match adjustLoop P s length point (point.toNat + 1) 0 ps with
    | none => none
    | some (pos, ps1) => some (pos - point, ps1)

/-! ## Boundary scanner -/

/-- The loop `while (count > 0)` of `_rl_find_next_mbchar_internal`: the final
`point`, wide character and shift state. -/
def nextLoop (P : Platform) (s : List Nat) (find_non_zero : Int) :
    Nat → Int → Int → Nat → Nat → Option (Int × Nat × Nat)
  | 0, _, _, _, _ => none
  | fuel + 1, point, count, wc, ps =>
    if 0 < count then
      let len := strlen (s.drop point.toNat)
      if len = 0 then some (point, wc, ps)
      else
        let r := mbrtowc P wc (s.drop point.toNat) len ps
        if MB_INVALIDCH r.ret then nextLoop P s find_non_zero fuel (point + 1) (count - 1) r.wc 0
        else if MB_NULLWCH r.ret then some (point, r.wc, r.ps)
        else if find_non_zero ≠ 0 then
          if P.WCWIDTH r.wc = 0 then nextLoop P s find_non_zero fuel (point + r.ret) count r.wc r.ps
          else nextLoop P s find_non_zero fuel (point + r.ret) (count - 1) r.wc r.ps
        else nextLoop P s find_non_zero fuel (point + r.ret) (count - 1) r.wc r.ps
    else some (point, wc, ps)

/-- The closing loop of `_rl_find_next_mbchar_internal`, which steps over
zero-width characters; `r` is the decoding made at `point`. -/
def skipLoop (P : Platform) (s : List Nat) : Nat → Int → Decoded → Option Int
  | 0, _, _ => none
  | fuel + 1, point, r =>
    if MB_NULLWCH r.ret = false ∧ MB_INVALIDCH r.ret = false ∧ P.WCWIDTH r.wc = 0 then
      let point1 := point + r.ret
      skipLoop P s fuel point1
        (mbrtowc P r.wc (s.drop point1.toNat) (strlen (s.drop point1.toNat)) r.ps)
    else some point

/-- The function `_rl_find_next_mbchar_internal (string, seed, count, find_non_zero)`.  The
local `wc` is written by a decoding before it is ever read; it starts as 0. -/
def _rl_find_next_mbchar_internal (P : Platform) (s : List Nat) (seed count find_non_zero : Int) :
    Option Int :=
  let seed := if seed < 0 then 0 else seed
  if count ≤ 0 then some seed
  else
    match _rl_adjust_point P s seed 0 with
    | none => none
    | some (d, ps) =>
      let point := seed + d
      let count := if seed < point then count - 1 else count
      match nextLoop P s find_non_zero (strlen s + 1) point count 0 ps with
      | none => none
      | some (point, wc, ps) =>
        if find_non_zero ≠ 0 then
          skipLoop P s (strlen s + 1) point
            (mbrtowc P wc (s.drop point.toNat) (strlen (s.drop point.toNat)) ps)
        else some point

/-- The loop `while (point < seed)` of `_rl_find_prev_mbchar_internal`. -/
def prevLoop (P : Platform) (s : List Nat) (length seed find_non_zero : Int) :
    Nat → Int → Int → Nat → Nat → Option Int
  | 0, _, _, _, _ => none
  | fuel + 1, point, prev, wc, ps =>
    if point < seed then
      let r := mbrtowc P wc (s.drop point.toNat) (length - point).toNat ps
      if MB_INVALIDCH r.ret then prevLoop P s length seed find_non_zero fuel (point + 1) point r.wc 0
      else if MB_NULLWCH r.ret then some prev
      else if find_non_zero ≠ 0 then
        if P.WCWIDTH r.wc ≠ 0 then
          prevLoop P s length seed find_non_zero fuel (point + r.ret) point r.wc r.ps
        else prevLoop P s length seed find_non_zero fuel (point + r.ret) prev r.wc r.ps
      else prevLoop P s length seed find_non_zero fuel (point + r.ret) point r.wc r.ps
    else some prev

/-- The function `_rl_find_prev_mbchar_internal (string, seed, find_non_zero)`. -/
def _rl_find_prev_mbchar_internal (P : Platform) (s : List Nat) (seed find_non_zero : Int) :
    Option Int :=
  let length : Int := strlen s
  if seed < 0 then some 0
  else if length < seed then some length
  else prevLoop P s length seed find_non_zero (seed.toNat + 1) 0 0 0 0

/-- The function `_rl_find_next_mbchar (string, seed, count, flags)` when `HANDLE_MULTIBYTE`
is defined, as the source requires. -/
def _rl_find_next_mbchar (P : Platform) (s : List Nat) (seed count flags : Int) : Option Int :=
  _rl_find_next_mbchar_internal P s seed count flags

/-- The function `_rl_find_prev_mbchar (string, seed, flags)` when `HANDLE_MULTIBYTE` is
defined. -/
def _rl_find_prev_mbchar (P : Platform) (s : List Nat) (seed flags : Int) : Option Int :=
  _rl_find_prev_mbchar_internal P s seed flags

/-! ## Length query and comparator -/

/-- The function `_rl_get_char_len (src, ps)` with a non-null `ps`: the returned value and
the shift state afterwards. -/
def _rl_get_char_len (P : Platform) (src : List Nat) (ps : Nat) : Int × Nat :=
  let r := mbrlen P src (strlen src) ps
  if r.ret = -2 then (-2, 0)
  else if r.ret = -1 then (-1, 0)
  else if r.ret = 0 then (0, r.ps)
  else (r.ret, r.ps)

/-- The function `_rl_compare_chars (buf1, pos1, ps1, buf2, pos2, ps2)` for offsets inside
the two strings: the returned value. -/
def _rl_compare_chars (P : Platform) (buf1 : List Nat) (pos1 : Nat) (ps1 : Nat)
    (buf2 : List Nat) (pos2 : Nat) (ps2 : Nat) : Int :=
  let w1 := (_rl_get_char_len P (buf1.drop pos1) ps1).1
  if w1 ≤ 0 then 0
  else
    let w2 := (_rl_get_char_len P (buf2.drop pos2) ps2).1
    if w2 ≤ 0 then 0
    else if w1 ≠ w2 then 0
    else if byteAt buf1 pos1 ≠ byteAt buf2 pos2 then 0
    else if (List.range (w1.toNat - 1)).all
        (fun j => byteAt buf1 (pos1 + (j + 1)) == byteAt buf2 (pos2 + (j + 1))) then 1
    else 0

/-! ## Examples of strings -/

/-- The string "café": 63 61 66 C3 A9. -/
def cafe : List Nat := [0x63, 0x61, 0x66, 0xC3, 0xA9]

/-- The string "€", the single character U+20AC: E2 82 AC. -/
def euro : List Nat := [0xE2, 0x82, 0xAC]

/-- The string "a", U+0301 (CC 81), "b". -/
def aAcuteB : List Nat := [0x61, 0xCC, 0x81, 0x62]

/-! ## Reference definition of the backward scan -/

/-- The boundaries of the forward walk from offset 0: the positions that
`find_forward (s, 0, k, false)` returns, for `k` up to the length of `s`. -/
def forwardBoundaries (P : Platform) (s : List Nat) : List Int :=
  (List.range (strlen s + 1)).filterMap (fun (k : Nat) => _rl_find_next_mbchar P s 0 (k : Int) 0)

/-- Whether the boundary `b` is remembered as a candidate: always when
`skip_zero_width` is clear; otherwise when the character at `b`, decoded from
a clean state, is an invalid byte or has a non-zero width. -/
def isCandidate (P : Platform) (s : List Nat) (skip_zero_width : Int) (b : Int) : Bool :=
  skip_zero_width == 0 ||
    (MB_INVALIDCH (mbrtowc P 0 (s.drop b.toNat) (strlen (s.drop b.toNat)) 0).ret ||
      P.WCWIDTH (mbrtowc P 0 (s.drop b.toNat) (strlen (s.drop b.toNat)) 0).wc != 0)

/-- The backward scan as the specification words it: 0 for `seed ≤ 0`, the
length for a `seed` past the end, otherwise the greatest candidate boundary
of the forward walk strictly below `seed`, and 0 when there is none. -/
def find_backward_ref (P : Platform) (s : List Nat) (seed skip_zero_width : Int) : Int :=
  if seed ≤ 0 then 0
  else if (strlen s : Int) < seed then (strlen s : Int)
  else
    ((forwardBoundaries P s).filter
      (fun b => decide (b < seed) && isCandidate P s skip_zero_width b)).foldl max 0

/-! ## The forward walk -/

/-- The bytes one scanning step consumes at the head of the non-empty rest `t`
of a string, from a clean shift state: the decoded length, or 1 for an
invalid or incomplete sequence. -/
def stepLen (P : Platform) (t : List Nat) : Nat :=
  let r := mbrtowc P 0 t (strlen t) 0
  if MB_INVALIDCH r.ret then 1 else r.ret.toNat

/-- The position after one scanning step from `p`; the end of the string is
a fixed point. -/
def nextB (P : Platform) (s : List Nat) (p : Nat) : Nat :=
  if s.length ≤ p then p else p + stepLen P (s.drop p)

/-- The `k`-th position of the forward walk from offset 0. -/
def bnd (P : Platform) (s : List Nat) : Nat → Nat
  | 0 => 0
  | k + 1 => nextB P s (bnd P s k)

/-! ## Well-formed UTF-8 -/

/-- Whether `b` is a UTF-8 continuation byte, 0x80..0xBF. -/
def isCont (b : Nat) : Bool := decide (0x80 ≤ b ∧ b ≤ 0xBF)

/-- Whether the bytes are the well-formed UTF-8 encoding of one non-NUL
Unicode scalar value (RFC 3629): one to four bytes. -/
def utf8Char : List Nat → Bool
  | [b0] => decide (0 < b0 ∧ b0 < 0x80)
  | [b0, b1] => decide (0xC2 ≤ b0 ∧ b0 ≤ 0xDF) && isCont b1
  | [b0, b1, b2] =>
    decide (0xE0 ≤ b0 ∧ b0 ≤ 0xEF) && isCont b1 && isCont b2
      && decide ((b0 = 0xE0 → 0xA0 ≤ b1) ∧ (b0 = 0xED → b1 ≤ 0x9F))
  | [b0, b1, b2, b3] =>
    decide (0xF0 ≤ b0 ∧ b0 ≤ 0xF4) && isCont b1 && isCont b2 && isCont b3
      && decide ((b0 = 0xF0 → 0x90 ≤ b1) ∧ (b0 = 0xF4 → b1 ≤ 0x8F))
  | _ => false

/-- Whether the bytes are one ASCII byte other than NUL or one well-formed
two-byte UTF-8 character. -/
def shortUtf8Char (c : List Nat) : Bool := utf8Char c && decide (c.length ≤ 2)

/-! ## Shell quoting (`shell.c`) -/

/-- The loop `for (s = string; s && (c = *s); s++)` of `sh_single_quote`:
`out` is what has been written through `r` so far. -/
def quoteLoop : List Nat → List Nat → List Nat
  | [], out => out
  | c :: rest, out =>
    if c = 0 then out
    else if c = 39 then quoteLoop rest (out ++ [c] ++ [92] ++ [39] ++ [39])
    else quoteLoop rest (out ++ [c])

/-- The function `sh_single_quote (string)`: the bytes of the result before
its terminating NUL.  The byte 39 is the single quote, 92 the backslash. -/
def sh_single_quote (string : List Nat) : List Nat :=
  quoteLoop string [39] ++ [39]

/-- The assignment `*r++ = c` into a buffer of `size` bytes, where `out` is
what has been written from the start of the buffer, so that the byte goes to
the index `out.length`: `none` when that index lies outside the buffer. -/
def storeByte (size : Nat) (out : List Nat) (c : Nat) : Option (List Nat) :=
  if out.length < size then some (out ++ [c]) else none

/-- The loop of `sh_single_quote` with every write checked against the size of
the buffer. -/
def quoteLoopIn (size : Nat) : List Nat → List Nat → Option (List Nat)
  | [], out => some out
  | c :: rest, out =>
    if c = 0 then some out
    else if c = 39 then
      (storeByte size out c).bind fun out1 =>
      (storeByte size out1 92).bind fun out2 =>
      (storeByte size out2 39).bind fun out3 =>
      (storeByte size out3 39).bind fun out4 =>
      quoteLoopIn size rest out4
    else (storeByte size out c).bind fun out1 => quoteLoopIn size rest out1

/-- The function `sh_single_quote (string)` with its buffer: the buffer has the
`3 + 4 * strlen (string)` bytes asked of `xmalloc`, and the result is every
byte written, the terminating NUL included, or `none` when a write falls
outside the buffer. -/
def sh_single_quote_in_buffer (string : List Nat) : Option (List Nat) :=
  (storeByte (3 + 4 * strlen string) [] 39).bind fun r0 =>
  (quoteLoopIn (3 + 4 * strlen string) string r0).bind fun r1 =>
  (storeByte (3 + 4 * strlen string) r1 39).bind fun r2 =>
  storeByte (3 + 4 * strlen string) r2 0

/-! ## Width cache -/

/-- The loop `while ((idx >>= 1) >= 0x80) r++` of `_rl_wcwidth_next_memsize`:
the final `r`. -/
def memsizeLoop : Nat → Nat → Nat → Option Nat
  | 0, _, _ => none
  | fuel + 1, idx, r =>
    if 0x80 ≤ idx / 2 then memsizeLoop fuel (idx / 2) (r + 1) else some r

/-- The function `_rl_wcwidth_next_memsize (idx)`.  A `size_t` has at most 64
bits, so 65 rounds of the loop are enough; for an index in the range of
`wchar_t` the shift `1 << r` has `r ≤ 16` and does not overflow. -/
def _rl_wcwidth_next_memsize (idx : Nat) : Option Nat :=
  match memsizeLoop 65 idx 8 with
  | none => none
  | some r => some (2 ^ r)

/-- A call to the console made while a width is measured. -/
inductive ConsoleCall where
  | create : ConsoleCall
  | getInfo : ConsoleCall
  | write : List Nat → ConsoleCall
deriving DecidableEq

/-- The console services `_rl_wcwidth_win32` calls, as operations on a console
state `σ` of any kind. -/
structure Console (σ : Type) where
  /-- The call `CreateConsoleScreenBuffer (...)`: whether the handle returned
  is non-null. -/
  CreateConsoleScreenBuffer : σ → Bool × σ
  /-- The call `GetConsoleScreenBufferInfo (hidden_console, &info)`: `none`
  when it returns 0, otherwise `dwCursorPosition.X` and `dwSize.X`. -/
  GetConsoleScreenBufferInfo : σ → Option (Int × Int) × σ
  /-- The call `WriteConsoleW (hidden_console, chars, n, NULL, NULL)`. -/
  WriteConsoleW : List Nat → σ → σ

/-- The console together with the record of the calls made to it, the most
recent last. -/
structure World (σ : Type) where
  state : σ
  calls : List ConsoleCall

/-- The static variables of `_rl_wcwidth_win32`.  The array `pwcwidths` is
`none` when the pointer is null, otherwise the function from an index to the
entry there; only the indices below `wcwidths_size` lie inside the array. -/
structure WidthStatics where
  hidden_console : Bool
  pwcwidths : Option (Nat → Int)
  wcwidths_size : Nat

/-- The conversion of an `int` to `char`, a signed byte. -/
def toSignedChar (d : Int) : Int := (d + 128) % 256 - 128

/-- The end of a measurement: the character is written, the cursor read again,
and the displacement from `x1` converted to `char`. -/
def measureWrite {σ : Type} (K : Console σ) (w : World σ) (wc : Nat) (x1 : Int) :
    Option Int × World σ :=
  let w1 : World σ := ⟨K.WriteConsoleW [wc] w.state, w.calls ++ [ConsoleCall.write [wc]]⟩
  let g := K.GetConsoleScreenBufferInfo w1.state
  let w2 : World σ := ⟨g.2, w1.calls ++ [ConsoleCall.getInfo]⟩
  match g.1 with
  | none => (none, w2)
  | some info2 => (some (toSignedChar (info2.1 - x1)), w2)

/-- The measurement once the hidden console exists: the cursor is read, a line
feed is written first when the cursor is within 5 columns of the right edge,
and the character is written and measured.  `none` where the source returns
-1 early. -/
def measureOpened {σ : Type} (K : Console σ) (w : World σ) (wc : Nat) : Option Int × World σ :=
  let g1 := K.GetConsoleScreenBufferInfo w.state
  let w1 : World σ := ⟨g1.2, w.calls ++ [ConsoleCall.getInfo]⟩
  match g1.1 with
  | none => (none, w1)
  | some info1 =>
    if info1.2 - 5 ≤ info1.1 then
      let w2 : World σ :=
        ⟨K.WriteConsoleW [0x0A, 0] w1.state, w1.calls ++ [ConsoleCall.write [0x0A, 0]]⟩
      let g2 := K.GetConsoleScreenBufferInfo w2.state
      let w3 : World σ := ⟨g2.2, w2.calls ++ [ConsoleCall.getInfo]⟩
      match g2.1 with
      | none => (none, w3)
      | some info1b => measureWrite K w3 wc info1b.1
    else measureWrite K w1 wc info1.1

/-- The block of `_rl_wcwidth_win32` that measures a character not yet in the
cache: `none` where the source returns -1 early, otherwise the value of
`width`; with it the new `hidden_console` and the console afterwards. -/
def measureWidth {σ : Type} (K : Console σ) (hidden_console : Bool) (w : World σ) (wc : Nat) :
    Option Int × Bool × World σ :=
  if hidden_console then ((measureOpened K w wc).1, true, (measureOpened K w wc).2)
  else
    let c := K.CreateConsoleScreenBuffer w.state
    let w0 : World σ := ⟨c.2, w.calls ++ [ConsoleCall.create]⟩
    if c.1 = false then (none, false, w0)
    else ((measureOpened K w0 wc).1, true, (measureOpened K w0 wc).2)

/-- The first part of `_rl_wcwidth_win32`, which allocates or enlarges the
cache: the array and its size afterwards.  `xmalloc` and `xrealloc` end the
process rather than return null, so the two tests for null never succeed.
Fresh memory is filled by `memset` up to the new size. -/
def growWidths (S : WidthStatics) (idx : Nat) : Option ((Nat → Int) × Nat) :=
  match S.pwcwidths with
  | none =>
    match _rl_wcwidth_next_memsize idx with
    | none => none
    | some size => some (fun i => if i < size then -1 else 0, size)
  | some mem =>
    if S.wcwidths_size ≤ idx then
      match _rl_wcwidth_next_memsize idx with
      | none => none
      | some size_new =>
        some (fun i => if S.wcwidths_size ≤ i ∧ i < size_new then -1 else mem i, size_new)
    else some (mem, S.wcwidths_size)

/-- The function `_rl_wcwidth_win32 (wc)`: the returned value, the static
variables and the console afterwards. -/
def _rl_wcwidth_win32 {σ : Type} (K : Console σ) (S : WidthStatics) (w : World σ) (wc : Nat) :
    Option (Int × WidthStatics × World σ) :=
  match growWidths S wc with
  | none => none
  | some grown =>
    if grown.1 wc = -1 then
      match (measureWidth K S.hidden_console w wc).1 with
      | none =>
        some (-1, ⟨(measureWidth K S.hidden_console w wc).2.1, some grown.1, grown.2⟩,
          (measureWidth K S.hidden_console w wc).2.2)
      | some width =>
        some (width,
          ⟨(measureWidth K S.hidden_console w wc).2.1,
            some (fun i => if i = wc then width else grown.1 i), grown.2⟩,
          (measureWidth K S.hidden_console w wc).2.2)
    else some (grown.1 wc, ⟨S.hidden_console, some grown.1, grown.2⟩, w)

/-- Whether the cache holds no measured width for `wc`: there is no array, the
array is too small, or the entry is -1. -/
def unmeasured (S : WidthStatics) (wc : Nat) : Prop :=
  match S.pwcwidths with
  | none => True
  | some mem => S.wcwidths_size ≤ wc ∨ mem wc = -1

/-- The static variables when the program starts. -/
def initialStatics : WidthStatics := ⟨false, none, 0⟩

/-- A console that always answers: the state is the cursor column, a line
feed moves it to 0, NUL leaves it, every other character advances it by
one; the screen is 80 columns wide. -/
def steadyConsole : Console Int where
  CreateConsoleScreenBuffer := fun x => (true, x)
  GetConsoleScreenBufferInfo := fun x => (some (x, 80), x)
  WriteConsoleW := fun chars x =>
    chars.foldl (fun col c => if c = 0x0A then 0 else if c = 0 then col else col + 1) x

/-- A console whose cursor cannot be read the first time it is asked and can
be read from then on: the state is the number of readings so far and the
cursor column. -/
def flakyConsole : Console (Nat × Int) where
  CreateConsoleScreenBuffer := fun st => (true, st)
  GetConsoleScreenBufferInfo := fun st =>
    (if st.1 = 0 then none else some (st.2, 80), (st.1 + 1, st.2))
  WriteConsoleW := fun chars st => (st.1, steadyConsole.WriteConsoleW chars st.2)

/-! ## Facts about one decoding -/

theorem mbrtowc_clean_cases (P : Platform) (wc : Nat) (t : List Nat) (n : Nat) :
    ((mbrtowc P wc t n 0).ret = -2 ∧ n ≤ 1) ∨
    ((mbrtowc P wc t n 0).ret = -1 ∧ (mbrtowc P wc t n 0).ps = 0 ∧ 1 ≤ n) ∨
    ((mbrtowc P wc t n 0).ret = 0 ∧ (mbrtowc P wc t n 0).ps = 0 ∧ 1 ≤ n ∧ byteAt t 0 = 0) ∨
    ((mbrtowc P wc t n 0).ret = 1 ∧ (mbrtowc P wc t n 0).ps = 0 ∧ 1 ≤ n ∧ byteAt t 0 ≠ 0) ∨
    ((mbrtowc P wc t n 0).ret = 2 ∧ (mbrtowc P wc t n 0).ps = 0 ∧ 2 ≤ n ∧ byteAt t 0 ≠ 0) := by
  unfold mbrtowc _rl_utf8_mbrtowc __mbrtowc_utf8
  by_cases hn : n = 0
  · simp [hn]
  by_cases h0 : byteAt t 0 = 0
  · simp [hn, h0]; omega
  simp only [hn, h0, if_false, Nat.zero_mod, ne_eq, not_true_eq_false, and_false]
  split
  · split
    · simp; omega
    · split <;> simp <;> omega
  · split <;> simp <;> omega

theorem mbrtowc_ret_wc (P : Platform) (wc : Nat) (t : List Nat) (n ps : Nat) :
    (mbrtowc P wc t n ps).ret = (mbrtowc P 0 t n ps).ret := by
  unfold mbrtowc _rl_utf8_mbrtowc __mbrtowc_utf8
  repeat' split
  all_goals rfl

theorem mbrtowc_ps_wc (P : Platform) (wc : Nat) (t : List Nat) (n ps : Nat) :
    (mbrtowc P wc t n ps).ps = (mbrtowc P 0 t n ps).ps := by
  unfold mbrtowc _rl_utf8_mbrtowc __mbrtowc_utf8
  repeat' split
  all_goals rfl

theorem mbrtowc_wc_wc (P : Platform) (wc : Nat) (t : List Nat) (n ps : Nat)
    (h : 0 < (mbrtowc P 0 t n ps).ret) :
    (mbrtowc P wc t n ps).wc = (mbrtowc P 0 t n ps).wc := by
  revert h
  unfold mbrtowc _rl_utf8_mbrtowc __mbrtowc_utf8
  repeat' split
  all_goals first | rfl | simp_all
/-! ## One scanning step -/

theorem byteAt_drop_ne_zero (s : List Nat) (hs : ∀ b ∈ s, b ≠ 0) (p : Nat) (hp : p < s.length) :
    byteAt (s.drop p) 0 ≠ 0 := by
  have h1 : byteAt (s.drop p) 0 = s[p] := by
    simp [byteAt, List.getD, hp]
  rw [h1]
  exact hs _ (List.getElem_mem _)

theorem strlen_drop (s : List Nat) (p : Nat) : strlen (s.drop p) = s.length - p := by
  simp [strlen]

theorem scan_step (P : Platform) (s : List Nat) (hs : ∀ b ∈ s, b ≠ 0) (p : Nat)
    (hp : p < s.length) (wc : Nat) :
    ((MB_INVALIDCH (mbrtowc P wc (s.drop p) (s.length - p) 0).ret = true
        ∧ stepLen P (s.drop p) = 1) ∨
     (MB_INVALIDCH (mbrtowc P wc (s.drop p) (s.length - p) 0).ret = false
        ∧ MB_NULLWCH (mbrtowc P wc (s.drop p) (s.length - p) 0).ret = false
        ∧ (mbrtowc P wc (s.drop p) (s.length - p) 0).ps = 0
        ∧ (mbrtowc P wc (s.drop p) (s.length - p) 0).ret = (stepLen P (s.drop p) : Int)))
    ∧ 1 ≤ stepLen P (s.drop p) ∧ p + stepLen P (s.drop p) ≤ s.length := by
  have hb := byteAt_drop_ne_zero s hs p hp
  have hr := mbrtowc_ret_wc P wc (s.drop p) (s.length - p) 0
  have hq := mbrtowc_ps_wc P wc (s.drop p) (s.length - p) 0
  unfold stepLen
  rw [strlen_drop, hr, hq]
  rcases mbrtowc_clean_cases P 0 (s.drop p) (s.length - p) with h | h | h | h | h
  · simp [h.1, MB_INVALIDCH]; omega
  · simp [h.1, MB_INVALIDCH]; omega
  · exact absurd h.2.2.2 hb
  · simp [h.1, h.2.1, MB_INVALIDCH, MB_NULLWCH]; omega
  · simp [h.1, h.2.1, MB_INVALIDCH, MB_NULLWCH]; omega

theorem nextB_of_lt (P : Platform) (s : List Nat) (p : Nat) (hp : p < s.length) :
    nextB P s p = p + stepLen P (s.drop p) := by
  simp [nextB, Nat.not_le.mpr hp]

theorem nextB_of_ge (P : Platform) (s : List Nat) (p : Nat) (hp : s.length ≤ p) :
    nextB P s p = p := by
  simp [nextB, hp]

theorem nextB_bounds (P : Platform) (s : List Nat) (hs : ∀ b ∈ s, b ≠ 0) (p : Nat)
    (hp : p < s.length) : p < nextB P s p ∧ nextB P s p ≤ s.length := by
  rw [nextB_of_lt P s p hp]
  have h := (scan_step P s hs p hp 0).2
  omega

theorem bnd_le_length (P : Platform) (s : List Nat) (hs : ∀ b ∈ s, b ≠ 0) (k : Nat) :
    bnd P s k ≤ s.length := by
  induction k with
  | zero => simp [bnd]
  | succ k ih =>
    rw [bnd]
    by_cases h : bnd P s k < s.length
    · exact (nextB_bounds P s hs _ h).2
    · rw [nextB_of_ge P s _ (Nat.not_lt.mp h)]; exact ih

theorem bnd_succ_ge (P : Platform) (s : List Nat) (hs : ∀ b ∈ s, b ≠ 0) (k : Nat) :
    bnd P s k ≤ bnd P s (k + 1) := by
  rw [bnd]
  by_cases h : bnd P s k < s.length
  · exact Nat.le_of_lt (nextB_bounds P s hs _ h).1
  · rw [nextB_of_ge P s _ (Nat.not_lt.mp h)]

theorem bnd_mono (P : Platform) (s : List Nat) (hs : ∀ b ∈ s, b ≠ 0) {i j : Nat} (h : i ≤ j) :
    bnd P s i ≤ bnd P s j := by
  induction j with
  | zero => simp_all
  | succ j ih =>
    rcases Nat.eq_or_lt_of_le h with h1 | h1
    · rw [h1]
    · exact Nat.le_trans (ih (Nat.lt_succ_iff.mp h1)) (bnd_succ_ge P s hs j)

theorem bnd_succ_gt (P : Platform) (s : List Nat) (hs : ∀ b ∈ s, b ≠ 0) (k : Nat)
    (h : bnd P s k < s.length) : bnd P s k < bnd P s (k + 1) := by
  rw [bnd]
  exact (nextB_bounds P s hs _ h).1

/-- Below the end of the string the walk is strictly increasing, so an index
is at most its position. -/
theorem bnd_ge_index (P : Platform) (s : List Nat) (hs : ∀ b ∈ s, b ≠ 0) (k : Nat) :
    min k s.length ≤ bnd P s k := by
  induction k with
  | zero => simp
  | succ k ih =>
    by_cases h : bnd P s k < s.length
    · have := bnd_succ_gt P s hs k h
      omega
    · have := bnd_succ_ge P s hs k
      omega

theorem bnd_lt_of_lt (P : Platform) (s : List Nat) (hs : ∀ b ∈ s, b ≠ 0) {i j : Nat}
    (h : bnd P s i < bnd P s j) : i < j := by
  by_contra hc
  have := bnd_mono P s hs (Nat.not_lt.mp hc)
  omega
/-! ## The forward scan along the walk -/

theorem bnd_add_of_ge (P : Platform) (s : List Nat) (i : Nat) (h : s.length ≤ bnd P s i)
    (c : Nat) : bnd P s (i + c) = bnd P s i := by
  induction c with
  | zero => rfl
  | succ c ih =>
    rw [← Nat.add_assoc, bnd, ih, nextB_of_ge P s _ h]

theorem nextLoop_walk (P : Platform) (s : List Nat) (hs : ∀ b ∈ s, b ≠ 0) :
    ∀ (fuel i c wc : Nat), s.length - bnd P s i < fuel →
      ∃ wc1, nextLoop P s 0 fuel (bnd P s i : Int) (c : Int) wc 0
        = some ((bnd P s (i + c) : Int), wc1, 0) := by
  intro fuel
  induction fuel with
  | zero => intro i c wc h; omega
  | succ fuel ih =>
    intro i c wc hf
    cases c with
    | zero => exact ⟨wc, by simp [nextLoop]⟩
    | succ c =>
      have hc : (0 : Int) < ((c + 1 : Nat) : Int) := by omega
      have hc1 : ((c + 1 : Nat) : Int) - 1 = (c : Int) := by omega
      rw [nextLoop]
      simp only [hc, if_true, Int.toNat_ofNat, strlen_drop, hc1]
      by_cases hend : s.length ≤ bnd P s i
      · refine ⟨wc, ?_⟩
        rw [bnd_add_of_ge P s i hend]
        simp [Nat.sub_eq_zero_of_le hend]
      · have hlt : bnd P s i < s.length := Nat.not_le.mp hend
        have hne : ¬ (s.length - bnd P s i = 0) := by omega
        have hstep := scan_step P s hs (bnd P s i) hlt wc
        have hnext : bnd P s (i + 1) = bnd P s i + stepLen P (s.drop (bnd P s i)) := by
          rw [bnd, nextB_of_lt P s _ hlt]
        have hidx : i + (c + 1) = (i + 1) + c := by omega
        have hfuel : s.length - bnd P s (i + 1) < fuel := by omega
        simp only [hne, if_false]
        rcases hstep with ⟨h | h, h1, h2⟩
        · obtain ⟨wc1, hw⟩ := ih (i + 1) c (mbrtowc P wc (s.drop (bnd P s i)) (s.length - bnd P s i) 0).wc hfuel
          refine ⟨wc1, ?_⟩
          rw [hnext, h.2] at hw
          simp only [h.1, if_true]
          rw [hidx, ← hw]
          push_cast
          rfl
        · obtain ⟨wc1, hw⟩ := ih (i + 1) c (mbrtowc P wc (s.drop (bnd P s i)) (s.length - bnd P s i) 0).wc hfuel
          refine ⟨wc1, ?_⟩
          rw [hnext] at hw
          simp only [h.1, h.2.1, h.2.2.1, ne_eq, not_true_eq_false, if_false, Bool.false_eq_true]
          rw [h.2.2.2, hidx, ← hw]
          push_cast
          rfl

theorem adjust_zero (P : Platform) (s : List Nat) (ps : Nat) :
    _rl_adjust_point P s 0 ps = some (0, ps) := by
  simp [_rl_adjust_point, adjustLoop]

/-- The forward scan from offset 0 without the zero-width flag returns the
positions of the walk. -/
theorem find_next_zero (P : Platform) (s : List Nat) (hs : ∀ b ∈ s, b ≠ 0) (k : Nat) :
    _rl_find_next_mbchar P s 0 (k : Int) 0 = some (bnd P s k : Int) := by
  unfold _rl_find_next_mbchar _rl_find_next_mbchar_internal
  cases k with
  | zero => simp [bnd]
  | succ k =>
    have hk : ¬ (((k + 1 : Nat) : Int) ≤ 0) := by omega
    have hf : s.length - bnd P s 0 < strlen s + 1 := by simp [strlen, bnd]
    obtain ⟨wc1, hw⟩ := nextLoop_walk P s hs (strlen s + 1) 0 (k + 1) 0 hf
    rw [Nat.zero_add] at hw
    have h0 : ((bnd P s 0 : Nat) : Int) = 0 := rfl
    rw [h0] at hw
    simp only [lt_self_iff_false, if_false, hk, adjust_zero, zero_add]
    rw [hw]
    simp
/-! ## The offset adjuster along the walk -/

theorem mbrlen_eq (P : Platform) (t : List Nat) (n ps : Nat) :
    mbrlen P t n ps = mbrtowc P 0 t n ps := rfl

theorem adjustLoop_walk (P : Platform) (s : List Nat) (hs : ∀ b ∈ s, b ≠ 0) (point : Nat)
    (hpt : point ≤ s.length) :
    ∀ (fuel i : Nat), (∀ m, m < i → bnd P s m < point) → point - bnd P s i < fuel →
      ∃ j, adjustLoop P s (strlen s : Int) (point : Int) fuel (bnd P s i : Int) 0
          = some ((bnd P s j : Int), 0)
        ∧ point ≤ bnd P s j ∧ ∀ m, m < j → bnd P s m < point := by
  intro fuel
  induction fuel with
  | zero => intro i _ h; omega
  | succ fuel ih =>
    intro i hi hf
    rw [adjustLoop]
    by_cases hlt : bnd P s i < point
    · have hlt1 : ((bnd P s i : Nat) : Int) < (point : Int) := by omega
      have hlen : bnd P s i < s.length := by omega
      have hn : (((strlen s : Nat) : Int) - ((bnd P s i : Nat) : Int)).toNat
          = s.length - bnd P s i := by simp only [strlen]; omega
      have hstep := scan_step P s hs (bnd P s i) hlen 0
      have hnext : bnd P s (i + 1) = bnd P s i + stepLen P (s.drop (bnd P s i)) := by
        rw [bnd, nextB_of_lt P s _ hlen]
      have hi1 : ∀ m, m < i + 1 → bnd P s m < point := by
        intro m hm
        rcases Nat.lt_succ_iff_lt_or_eq.mp hm with h | h
        · exact hi m h
        · rw [h]; exact hlt
      have hfuel : point - bnd P s (i + 1) < fuel := by omega
      obtain ⟨j, hj, hj1, hj2⟩ := ih (i + 1) hi1 hfuel
      refine ⟨j, ?_, hj1, hj2⟩
      simp only [hlt1, if_true, Int.toNat_ofNat, hn, mbrlen_eq]
      rw [hnext] at hj
      rcases hstep with ⟨h | h, _, _⟩
      · simp only [h.1, if_true]
        rw [h.2] at hj
        rw [← hj]
        push_cast
        rfl
      · simp only [h.1, h.2.1, h.2.2.1, if_false, Bool.false_eq_true]
        rw [h.2.2.2, ← hj]
        push_cast
        rfl
    · have hge : ¬ (((bnd P s i : Nat) : Int) < (point : Int)) := by omega
      refine ⟨i, ?_, Nat.not_lt.mp hlt, hi⟩
      simp only [hge, if_false]

/-- The offset adjuster, for an offset inside a NUL-free string and a clean
state, stops at the first position of the walk at or after the offset. -/
theorem adjust_walk (P : Platform) (s : List Nat) (hs : ∀ b ∈ s, b ≠ 0) (point : Nat)
    (hpt : point ≤ s.length) :
    ∃ j, _rl_adjust_point P s (point : Int) 0 = some ((bnd P s j : Int) - (point : Int), 0)
      ∧ point ≤ bnd P s j ∧ ∀ m, m < j → bnd P s m < point := by
  have hf : point - bnd P s 0 < (point : Int).toNat + 1 := by simp [bnd]
  obtain ⟨j, hj, hj1, hj2⟩ := adjustLoop_walk P s hs point hpt _ 0 (by intro m hm; omega) hf
  refine ⟨j, ?_, hj1, hj2⟩
  have h0 : ((bnd P s 0 : Nat) : Int) = 0 := rfl
  rw [h0] at hj
  have h1 : ¬ ((point : Int) < 0) := by omega
  have h2 : ¬ (((strlen s : Nat) : Int) < (point : Int)) := by simp only [strlen]; omega
  unfold _rl_adjust_point
  simp only [h1, h2, if_false, hj]

theorem mbrtowc_ret_cases (P : Platform) (wc : Nat) (t : List Nat) (n ps : Nat) :
    (mbrtowc P wc t n ps).ret = -2 ∨ (mbrtowc P wc t n ps).ret = -1 ∨
    (mbrtowc P wc t n ps).ret = 0 ∨ (mbrtowc P wc t n ps).ret = 1 ∨
    (mbrtowc P wc t n ps).ret = 2 := by
  unfold mbrtowc _rl_utf8_mbrtowc __mbrtowc_utf8
  repeat' split
  all_goals simp

/-- The loop of the offset adjuster ends, whatever the bytes and the state,
at a position that is not before `point`. -/
theorem adjustLoop_total (P : Platform) (s : List Nat) (length point : Int) :
    ∀ (fuel : Nat) (pos : Int) (ps : Nat), (point - pos).toNat < fuel →
      ∃ pos1 ps1, adjustLoop P s length point fuel pos ps = some (pos1, ps1) ∧ point ≤ pos1 := by
  intro fuel
  induction fuel with
  | zero => intro pos ps h; omega
  | succ fuel ih =>
    intro pos ps hf
    rw [adjustLoop]
    by_cases hlt : pos < point
    · simp only [hlt, if_true, mbrlen_eq]
      rcases mbrtowc_ret_cases P 0 (s.drop pos.toNat) (length - pos).toNat ps with h | h | h | h | h
      · simp only [h]
        rw [if_pos (by decide)]
        exact ih _ _ (by omega)
      · simp only [h]
        rw [if_pos (by decide)]
        exact ih _ _ (by omega)
      · simp only [h]
        rw [if_neg (by decide), if_pos (by decide)]
        exact ih _ _ (by omega)
      · simp only [h]
        rw [if_neg (by decide), if_neg (by decide)]
        exact ih _ _ (by omega)
      · simp only [h]
        rw [if_neg (by decide), if_neg (by decide)]
        exact ih _ _ (by omega)
    · exact ⟨pos, ps, by simp only [hlt, if_false], by omega⟩
/-! ## The backward scan along the walk -/

theorem prevLoop_walk (P : Platform) (s : List Nat) (hs : ∀ b ∈ s, b ≠ 0) (seed : Nat)
    (hseed : seed ≤ s.length) (flag : Int) :
    ∀ (fuel i : Nat) (prev : Int) (wc : Nat), seed - bnd P s i < fuel →
      ∃ R, prevLoop P s (strlen s : Int) (seed : Int) flag fuel (bnd P s i : Int) prev wc 0
          = some R
        ∧ (R = prev ∨ ∃ m, i ≤ m ∧ bnd P s m < seed
            ∧ isCandidate P s flag (bnd P s m : Int) = true ∧ R = (bnd P s m : Int))
        ∧ ∀ m, i ≤ m → bnd P s m < seed → isCandidate P s flag (bnd P s m : Int) = true →
            (bnd P s m : Int) ≤ R := by
  intro fuel
  induction fuel with
  | zero => intro i _ _ h; omega
  | succ fuel ih =>
    intro i prev wc hf
    rw [prevLoop]
    by_cases hlt : bnd P s i < seed
    · have hlt1 : ((bnd P s i : Nat) : Int) < (seed : Int) := by omega
      have hlen : bnd P s i < s.length := by omega
      have hn : (((strlen s : Nat) : Int) - ((bnd P s i : Nat) : Int)).toNat
          = s.length - bnd P s i := by simp only [strlen]; omega
      have hstep := scan_step P s hs (bnd P s i) hlen wc
      have hnext : bnd P s (i + 1) = bnd P s i + stepLen P (s.drop (bnd P s i)) := by
        rw [bnd, nextB_of_lt P s _ hlen]
      have hfuel : seed - bnd P s (i + 1) < fuel := by omega
      have hcand : isCandidate P s flag (bnd P s i : Int)
          = (flag == 0 ||
              (MB_INVALIDCH (mbrtowc P 0 (s.drop (bnd P s i)) (s.length - bnd P s i) 0).ret ||
                P.WCWIDTH (mbrtowc P 0 (s.drop (bnd P s i)) (s.length - bnd P s i) 0).wc != 0)) := by
        simp only [isCandidate, Int.toNat_ofNat, strlen_drop]
      -- the step remembers the boundary
      have keep : ∀ wc1, isCandidate P s flag (bnd P s i : Int) = true →
          ∃ R, prevLoop P s (strlen s : Int) (seed : Int) flag fuel (bnd P s (i + 1) : Int)
              (bnd P s i : Int) wc1 0 = some R
            ∧ (R = prev ∨ ∃ m, i ≤ m ∧ bnd P s m < seed
                ∧ isCandidate P s flag (bnd P s m : Int) = true ∧ R = (bnd P s m : Int))
            ∧ ∀ m, i ≤ m → bnd P s m < seed → isCandidate P s flag (bnd P s m : Int) = true →
                (bnd P s m : Int) ≤ R := by
        intro wc1 hc
        obtain ⟨R, hR, hR1, hR2⟩ := ih (i + 1) (bnd P s i : Int) wc1 hfuel
        have hge : (bnd P s i : Int) ≤ R := by
          rcases hR1 with h | ⟨m, hm, _, _, h⟩
          · omega
          · have := bnd_mono P s hs (Nat.le_of_succ_le hm)
            omega
        refine ⟨R, hR, Or.inr ?_, ?_⟩
        · rcases hR1 with h | ⟨m, hm, hm1, hm2, h⟩
          · exact ⟨i, Nat.le_refl i, hlt, hc, h⟩
          · exact ⟨m, Nat.le_of_succ_le hm, hm1, hm2, h⟩
        · intro m hm hm1 hm2
          rcases Nat.eq_or_lt_of_le hm with h | h
          · rw [← h]; exact hge
          · exact hR2 m h hm1 hm2
      -- the step leaves the remembered boundary as it was
      have skip : ∀ wc1, isCandidate P s flag (bnd P s i : Int) = false →
          ∃ R, prevLoop P s (strlen s : Int) (seed : Int) flag fuel (bnd P s (i + 1) : Int)
              prev wc1 0 = some R
            ∧ (R = prev ∨ ∃ m, i ≤ m ∧ bnd P s m < seed
                ∧ isCandidate P s flag (bnd P s m : Int) = true ∧ R = (bnd P s m : Int))
            ∧ ∀ m, i ≤ m → bnd P s m < seed → isCandidate P s flag (bnd P s m : Int) = true →
                (bnd P s m : Int) ≤ R := by
        intro wc1 hc
        obtain ⟨R, hR, hR1, hR2⟩ := ih (i + 1) prev wc1 hfuel
        refine ⟨R, hR, ?_, ?_⟩
        · rcases hR1 with h | ⟨m, hm, hm1, hm2, h⟩
          · exact Or.inl h
          · exact Or.inr ⟨m, Nat.le_of_succ_le hm, hm1, hm2, h⟩
        · intro m hm hm1 hm2
          rcases Nat.eq_or_lt_of_le hm with h | h
          · rw [← h, hc] at hm2; exact absurd hm2 (by decide)
          · exact hR2 m h hm1 hm2
      simp only [hlt1, if_true, Int.toNat_ofNat, hn]
      have hrw := mbrtowc_ret_wc P wc (s.drop (bnd P s i)) (s.length - bnd P s i) 0
      rcases hstep with ⟨h | h, _, _⟩
      · simp only [h.1, if_true]
        have hc : isCandidate P s flag (bnd P s i : Int) = true := by
          rw [hcand, ← hrw, h.1]; simp
        have hcast : ((bnd P s i : Nat) : Int) + 1 = ((bnd P s (i + 1) : Nat) : Int) := by
          rw [hnext, h.2]; push_cast; rfl
        rw [hcast]
        exact keep _ hc
      · simp only [h.1, h.2.1, h.2.2.1, if_false, Bool.false_eq_true]
        have hcast : ((bnd P s i : Nat) : Int)
            + (mbrtowc P wc (s.drop (bnd P s i)) (s.length - bnd P s i) 0).ret
            = ((bnd P s (i + 1) : Nat) : Int) := by
          rw [hnext, h.2.2.2]; push_cast; rfl
        have hpos : 0 < (mbrtowc P 0 (s.drop (bnd P s i)) (s.length - bnd P s i) 0).ret := by
          rw [← hrw, h.2.2.2]; omega
        have hwc := mbrtowc_wc_wc P wc (s.drop (bnd P s i)) (s.length - bnd P s i) 0 hpos
        rw [hcast]
        by_cases hflag : flag = 0
        · have hc : isCandidate P s flag (bnd P s i : Int) = true := by
            rw [hcand, hflag]; simp
          simp only [hflag, ne_eq, not_true_eq_false, if_false]
          rw [← hflag]
          exact keep _ hc
        · simp only [ne_eq, hflag, not_false_eq_true, if_true]
          by_cases hw : P.WCWIDTH (mbrtowc P wc (s.drop (bnd P s i)) (s.length - bnd P s i) 0).wc = 0
          · have hc : isCandidate P s flag (bnd P s i : Int) = false := by
              rw [hcand, ← hrw, h.1, ← hwc, hw]; simp [hflag]
            simp only [hw, not_true_eq_false, if_false]
            exact skip _ hc
          · have hc : isCandidate P s flag (bnd P s i : Int) = true := by
              rw [hcand, ← hwc]; simp [hw]
            simp only [hw, not_false_eq_true, if_true]
            exact keep _ hc
    · have hge : ¬ (((bnd P s i : Nat) : Int) < (seed : Int)) := by omega
      refine ⟨prev, by simp only [hge, if_false], Or.inl rfl, ?_⟩
      intro m hm hm1 _
      have := bnd_mono P s hs hm
      omega

/-! ## Totality and the shift state of the loops -/

theorem find_next_zero_int (P : Platform) (s : List Nat) (hs : ∀ b ∈ s, b ≠ 0) (k : Int) :
    _rl_find_next_mbchar P s 0 k 0 = some (bnd P s k.toNat : Int) := by
  by_cases hk : 0 ≤ k
  · have h := find_next_zero P s hs k.toNat
    rw [Int.toNat_of_nonneg hk] at h
    exact h
  · have h1 : k ≤ 0 := by omega
    have h2 : k.toNat = 0 := by omega
    rw [h2]
    simp [_rl_find_next_mbchar, _rl_find_next_mbchar_internal, h1, bnd]

theorem foldl_max_eq (l : List Int) :
    ∀ (a R : Int), a ≤ R → (R = a ∨ R ∈ l) → (∀ x ∈ l, x ≤ R) → l.foldl max a = R := by
  induction l with
  | nil =>
    intro a R _ h _
    rcases h with h | h
    · exact h.symm
    · exact absurd h (List.not_mem_nil R)
  | cons x l ih =>
    intro a R ha h hall
    have hx : x ≤ R := hall x (List.mem_cons_self x l)
    rw [List.foldl_cons]
    apply ih
    · exact max_le ha hx
    · rcases h with h | h
      · left; rw [h]; exact (max_eq_left (by omega)).symm
      · rcases List.mem_cons.mp h with h1 | h1
        · left; rw [h1]; exact (max_eq_right (by omega)).symm
        · right; exact h1
    · intro y hy
      exact hall y (List.mem_cons_of_mem x hy)

theorem forwardBoundaries_eq (P : Platform) (s : List Nat) (hs : ∀ b ∈ s, b ≠ 0) :
    forwardBoundaries P s = (List.range (s.length + 1)).map (fun k => (bnd P s k : Int)) := by
  have h : (fun k : Nat => _rl_find_next_mbchar P s 0 (k : Int) 0)
      = some ∘ (fun k : Nat => (bnd P s k : Int)) :=
    funext (fun k => find_next_zero P s hs k)
  unfold forwardBoundaries strlen
  rw [h, List.filterMap_eq_map]

theorem find_prev_char (P : Platform) (s : List Nat) (hs : ∀ b ∈ s, b ≠ 0) (seed : Nat)
    (hseed : seed ≤ s.length) (flag : Int) :
    ∃ R, _rl_find_prev_mbchar P s (seed : Int) flag = some R
      ∧ (R = 0 ∨ ∃ m, bnd P s m < seed
          ∧ isCandidate P s flag (bnd P s m : Int) = true ∧ R = (bnd P s m : Int))
      ∧ ∀ m, bnd P s m < seed → isCandidate P s flag (bnd P s m : Int) = true →
          (bnd P s m : Int) ≤ R := by
  have hf : seed - bnd P s 0 < (seed : Int).toNat + 1 := by simp [bnd]
  obtain ⟨R, hR, hR1, hR2⟩ := prevLoop_walk P s hs seed hseed flag _ 0 0 0 hf
  have h0 : ((bnd P s 0 : Nat) : Int) = 0 := rfl
  rw [h0] at hR
  have h1 : ¬ ((seed : Int) < 0) := by omega
  have h2 : ¬ (((strlen s : Nat) : Int) < (seed : Int)) := by simp only [strlen]; omega
  refine ⟨R, ?_, ?_, ?_⟩
  · unfold _rl_find_prev_mbchar _rl_find_prev_mbchar_internal
    simp only [h1, h2, if_false, hR]
  · rcases hR1 with h | ⟨m, _, hm1, hm2, h⟩
    · exact Or.inl h
    · exact Or.inr ⟨m, hm1, hm2, h⟩
  · intro m hm1 hm2
    exact hR2 m (Nat.zero_le m) hm1 hm2

theorem stepLen_le_two (P : Platform) (t : List Nat) : stepLen P t ≤ 2 := by
  unfold stepLen
  rcases mbrtowc_clean_cases P 0 t (strlen t) with h | h | h | h | h
  all_goals simp [h.1, MB_INVALIDCH]

/-! ## The claims -/

/-- C1: the forward scan does not return the byte offset of the second
character for every valid UTF-8 string.  The string "€" is the single
three-byte character U+20AC; one step of `find_forward` from offset 0 should
return 3, and on no host does it: the decoder hands only the first two bytes
to the converter, and on a host that follows UTF-8 the scan returns 1. -/
theorem C1_three_byte_character_not_stepped_over :
    utf8Decode euro = some 0x20AC
    ∧ _rl_find_next_mbchar (utf8Host combiningWidth) euro 0 1 0 = some 1
    ∧ ∀ P : Platform, _rl_find_next_mbchar P euro 0 1 0 ≠ some 3 := by
  refine ⟨by decide, by decide, ?_⟩
  intro P
  have h := find_next_zero P euro (by decide) 1
  have h1 : bnd P euro 1 ≤ 2 := by
    have := stepLen_le_two P euro
    simpa [bnd, nextB, euro] using this
  simp only [Nat.cast_one] at h
  rw [h]
  intro hc
  have hc1 := Option.some.inj hc
  omega

/-- C2: for a NUL-free string, an offset `point` inside it and a clean decode
state, the offset adjuster returns `d ≥ 0` such that `point + d` is a position
returned by the forward scan from offset 0, no position returned by that scan
that is at or after `point` lies before `point + d`, `d = 0` exactly when
`point` is itself such a position, and `point + d` is within the string.  On
"café" (63 61 66 C3 A9), on a host that follows UTF-8, the adjuster returns 1
at offset 4. -/
theorem C2_adjust_least_boundary (P : Platform) (s : List Nat) (hs : ∀ b ∈ s, b ≠ 0)
    (point : Int) (h0 : 0 ≤ point) (h1 : point ≤ (strlen s : Int)) :
    (∃ d ps, _rl_adjust_point P s point 0 = some (d, ps)
      ∧ 0 ≤ d
      ∧ (∃ k : Int, _rl_find_next_mbchar P s 0 k 0 = some (point + d))
      ∧ (∀ (k b : Int), _rl_find_next_mbchar P s 0 k 0 = some b → point ≤ b → point + d ≤ b)
      ∧ (d = 0 ↔ ∃ k : Int, _rl_find_next_mbchar P s 0 k 0 = some point)
      ∧ point + d ≤ (strlen s : Int))
    ∧ _rl_adjust_point (utf8Host combiningWidth) cafe 4 0 = some (1, 0) := by
  refine ⟨?_, by decide⟩
  have hp : point.toNat ≤ s.length := by simp only [strlen] at h1; omega
  obtain ⟨j, hj, hj1, hj2⟩ := adjust_walk P s hs point.toNat hp
  rw [Int.toNat_of_nonneg h0] at hj
  have hleast : ∀ (k b : Int), _rl_find_next_mbchar P s 0 k 0 = some b → point ≤ b →
      (bnd P s j : Int) ≤ b := by
    intro k b hk hb
    rw [find_next_zero_int P s hs k] at hk
    have hk1 := Option.some.inj hk
    have hjk : j ≤ k.toNat := by
      by_contra hc
      have := hj2 k.toNat (Nat.not_le.mp hc)
      omega
    have := bnd_mono P s hs hjk
    omega
  refine ⟨(bnd P s j : Int) - point, 0, hj, by omega, ⟨(j : Int), ?_⟩, ?_, ?_, ?_⟩
  · rw [find_next_zero P s hs j]; congr 1; omega
  · intro k b hk hb
    have := hleast k b hk hb
    omega
  · constructor
    · intro hd
      refine ⟨(j : Int), ?_⟩
      rw [find_next_zero P s hs j]; congr 1; omega
    · rintro ⟨k, hk⟩
      have := hleast k point hk (le_refl point)
      omega
  · have := bnd_le_length P s hs j
    simp only [strlen]
    omega

/-- C2, witnessed on "café" at offset 4. -/
theorem C2_adjust_least_boundary_witness :
    (∃ d ps, _rl_adjust_point (utf8Host combiningWidth) cafe 4 0 = some (d, ps)
      ∧ 0 ≤ d
      ∧ (∃ k : Int, _rl_find_next_mbchar (utf8Host combiningWidth) cafe 0 k 0 = some (4 + d))
      ∧ (∀ (k b : Int), _rl_find_next_mbchar (utf8Host combiningWidth) cafe 0 k 0 = some b →
          4 ≤ b → 4 + d ≤ b)
      ∧ (d = 0 ↔ ∃ k : Int, _rl_find_next_mbchar (utf8Host combiningWidth) cafe 0 k 0 = some 4)
      ∧ 4 + d ≤ (strlen cafe : Int))
    ∧ _rl_adjust_point (utf8Host combiningWidth) cafe 4 0 = some (1, 0) :=
  C2_adjust_least_boundary (utf8Host combiningWidth) cafe (by decide) 4 (by decide) (by decide)

/-- C3: for every string, every integer `point` and every incoming decode
state, the offset adjuster returns a value; the value is -1 exactly when
`point < 0` or `point > strlen (s)`, it is non-negative for every `point` in
range, and for a `point` out of range the decode state is left as it was. -/
theorem C3_adjust_out_of_range (P : Platform) (s : List Nat) (point : Int) (ps : Nat) :
    ∃ d ps1, _rl_adjust_point P s point ps = some (d, ps1)
      ∧ (d = -1 ↔ (point < 0 ∨ (strlen s : Int) < point))
      ∧ ((0 ≤ point ∧ point ≤ (strlen s : Int)) → 0 ≤ d)
      ∧ ((point < 0 ∨ (strlen s : Int) < point) → ps1 = ps) := by
  unfold _rl_adjust_point
  by_cases h1 : point < 0
  · exact ⟨-1, ps, by simp only [h1, if_true], by simp [h1], by omega, fun _ => rfl⟩
  by_cases h2 : (strlen s : Int) < point
  · exact ⟨-1, ps, by simp only [h1, h2, if_true, if_false], by simp [h2], by omega, fun _ => rfl⟩
  obtain ⟨pos1, ps1, hl, hge⟩ :=
    adjustLoop_total P s (strlen s : Int) point (point.toNat + 1) 0 ps (by omega)
  refine ⟨pos1 - point, ps1, by simp only [h1, h2, if_false, hl], ?_, by omega, ?_⟩
  · constructor
    · intro h; omega
    · intro h; omega
  · intro h; omega

/-- C4: for a NUL-free string and `k ≥ 1` such that the forward scan of `k - 1`
steps from offset 0 ends at `q` before the end of the string, the forward scan
of `k` steps returns a position `p`, and the backward scan from `p` returns
`q`: the position of the walk immediately before `p`. -/
theorem C4_backward_inverts_forward (P : Platform) (s : List Nat) (hs : ∀ b ∈ s, b ≠ 0)
    (k : Int) (hk : 1 ≤ k) (q : Int)
    (hq : _rl_find_next_mbchar P s 0 (k - 1) 0 = some q) (hlt : q < (strlen s : Int)) :
    ∃ p, _rl_find_next_mbchar P s 0 k 0 = some p ∧ _rl_find_prev_mbchar P s p 0 = some q := by
  rw [find_next_zero_int P s hs (k - 1)] at hq
  have hq1 := Option.some.inj hq
  have hidx : k.toNat = (k - 1).toNat + 1 := by omega
  have hq2 : bnd P s (k - 1).toNat < s.length := by simp only [strlen] at hlt; omega
  have hgt := bnd_succ_gt P s hs (k - 1).toNat hq2
  have hle := bnd_le_length P s hs ((k - 1).toNat + 1)
  refine ⟨(bnd P s k.toNat : Int), find_next_zero_int P s hs k, ?_⟩
  rw [hidx]
  obtain ⟨R, hR, hR1, hR2⟩ := find_prev_char P s hs (bnd P s ((k - 1).toNat + 1)) hle 0
  rw [hR]
  congr 1
  have hge := hR2 (k - 1).toNat hgt (by simp [isCandidate])
  rcases hR1 with h | ⟨m, hm, _, h⟩
  · omega
  · have hm1 := bnd_lt_of_lt P s hs hm
    have := bnd_mono P s hs (Nat.lt_succ_iff.mp hm1)
    omega

/-- C4, witnessed on "café" with `k = 4`: the forward scans give 3 and 5, and
the backward scan from 5 gives 3. -/
theorem C4_backward_inverts_forward_witness :
    ∃ p, _rl_find_next_mbchar (utf8Host combiningWidth) cafe 0 4 0 = some p
      ∧ _rl_find_prev_mbchar (utf8Host combiningWidth) cafe p 0 = some 3 :=
  C4_backward_inverts_forward (utf8Host combiningWidth) cafe (by decide) 4 (by decide) 3
    (by decide) (by decide)

/-- C5: for a NUL-free string, every integer seed and every flag, the backward
scan equals the reference definition: 0 for `seed ≤ 0`, the length for a seed
past the end, otherwise the greatest position of the forward walk below `seed`
that counts as a candidate (every position when the flag is clear; with the
flag set, those whose character is an invalid byte or has non-zero width), and
0 when there is none.  For `0 < seed ≤ strlen (s)` the result is below
`seed`. -/
theorem C5_backward_refines_reference (P : Platform) (s : List Nat) (hs : ∀ b ∈ s, b ≠ 0)
    (seed flag : Int) :
    _rl_find_prev_mbchar P s seed flag = some (find_backward_ref P s seed flag)
    ∧ ((0 < seed ∧ seed ≤ (strlen s : Int)) → find_backward_ref P s seed flag < seed) := by
  by_cases h1 : seed < 0
  · have h1a : seed ≤ 0 := by omega
    refine ⟨?_, by omega⟩
    simp [_rl_find_prev_mbchar, _rl_find_prev_mbchar_internal, find_backward_ref, h1, h1a]
  by_cases h2 : (strlen s : Int) < seed
  · have h2a : ¬ (seed ≤ 0) := by omega
    refine ⟨?_, by omega⟩
    simp [_rl_find_prev_mbchar, _rl_find_prev_mbchar_internal, find_backward_ref, h1, h2, h2a]
  have hseed : seed.toNat ≤ s.length := by simp only [strlen] at h2; omega
  have hcast : ((seed.toNat : Nat) : Int) = seed := by omega
  obtain ⟨R, hR, hR1, hR2⟩ := find_prev_char P s hs seed.toNat hseed flag
  rw [hcast] at hR
  by_cases h3 : seed ≤ 0
  · have h3a : seed = 0 := by omega
    subst h3a
    refine ⟨?_, by omega⟩
    simp [_rl_find_prev_mbchar, _rl_find_prev_mbchar_internal, find_backward_ref, prevLoop]
  have href : find_backward_ref P s seed flag = R := by
    unfold find_backward_ref
    simp only [h3, h2, if_false]
    rw [forwardBoundaries_eq P s hs]
    apply foldl_max_eq
    · rcases hR1 with h | ⟨m, _, _, h⟩ <;> omega
    · rcases hR1 with h | ⟨m, hm, hm1, h⟩
      · exact Or.inl h
      · right
        have hidx := bnd_ge_index P s hs m
        simp only [List.mem_filter, List.mem_map, List.mem_range, Bool.and_eq_true,
          decide_eq_true_eq]
        refine ⟨⟨m, by omega, h.symm⟩, by omega, ?_⟩
        rw [h]; exact hm1
    · intro x hx
      simp only [List.mem_filter, List.mem_map, List.mem_range, Bool.and_eq_true,
        decide_eq_true_eq] at hx
      obtain ⟨⟨m, _, hm⟩, hx1, hx2⟩ := hx
      rw [← hm] at hx1 hx2 ⊢
      exact hR2 m (by omega) hx2
  rw [href]
  refine ⟨hR, ?_⟩
  intro _
  rcases hR1 with h | ⟨m, hm, _, h⟩ <;> omega

/-- C5, witnessed on "a", U+0301, "b" with the zero-width flag set. -/
theorem C5_backward_refines_reference_witness :
    _rl_find_prev_mbchar (utf8Host combiningWidth) aAcuteB 3 1
        = some (find_backward_ref (utf8Host combiningWidth) aAcuteB 3 1)
    ∧ ((0 < (3 : Int) ∧ (3 : Int) ≤ (strlen aAcuteB : Int)) →
        find_backward_ref (utf8Host combiningWidth) aAcuteB 3 1 < 3) :=
  C5_backward_refines_reference (utf8Host combiningWidth) aAcuteB (by decide) 3 1

/-- The decoder never reports a length above 2, on any host; so on a host that
gives the encoder room for four bytes and whose encoder accepts U+20AC as the
three bytes E2 82 AC, the decoder returns -1 (Invalid) for these bytes. -/
theorem decoder_at_most_two_bytes :
    _rl_utf8_wcrtomb (utf8Host combiningWidth) 0x20AC = (3, euro)
    ∧ _rl_utf8_mbrtowc (utf8Host combiningWidth) 0 euro 3 0 = ⟨-1, 0, 0⟩
    ∧ ∀ (P : Platform) (pwc : Nat) (s : List Nat) (n ps : Nat),
        (_rl_utf8_mbrtowc P pwc s n ps).ret ≤ 2 := by
  refine ⟨by decide, by decide, ?_⟩
  intro P pwc s n ps
  rcases mbrtowc_ret_cases P pwc s n ps with h | h | h | h | h
  all_goals simp only [mbrtowc] at h
  all_goals omega

/-- C7 as stated fails: with the pending state C3 the ASCII byte 41 is not
decoded as the one-byte character 41 but rejected as the trailing byte of the
pending lead, and the lead byte E2 followed by the continuation bytes 82 AC of
the well-formed "€" is rejected instead of giving a character of length 3. -/
theorem C7_counterexample :
    __mbrtowc_utf8 (utf8Host combiningWidth) 0 [0x41] 1 0xC3 4 = ⟨-1, 0, 0⟩
    ∧ __mbrtowc_utf8 (utf8Host combiningWidth) 0 euro 3 0 4 = ⟨-1, 0, 0⟩ := by
  constructor <;> decide

/-- C7, amended: on a host that follows UTF-8, for a non-NUL first byte `b`
and enough remaining bytes: if the state is clean and `b < 0x80` the outcome is
the character `b` of length 1; if the state is pending and `b < 0x80` the
outcome is Invalid; if the state is clean and `b` is in 0x80-0xC1 or 0xF5-0xFF
the outcome is Invalid; if the state is clean, `b` is in 0xC2-0xDF and a
continuation byte follows, the outcome is the two-byte character with its
codepoint; and a reported length is never above 4. -/
theorem C7_lead_byte_classification (P : Platform) (hP : FollowsUtf8 P) (pwc : Nat)
    (s : List Nat) (n : Nat) (hb : byteAt s 0 ≠ 0) (hn : 1 ≤ n) :
    (byteAt s 0 < 0x80 →
        __mbrtowc_utf8 P pwc s n 0 P.MB_CUR_MAX = ⟨1, byteAt s 0, 0⟩)
    ∧ (byteAt s 0 < 0x80 → ∀ ps, ps % 256 ≠ 0 →
        __mbrtowc_utf8 P pwc s n ps P.MB_CUR_MAX = ⟨-1, pwc, 0⟩)
    ∧ (((0x80 ≤ byteAt s 0 ∧ byteAt s 0 ≤ 0xC1) ∨ (0xF5 ≤ byteAt s 0 ∧ byteAt s 0 ≤ 0xFF)) →
        __mbrtowc_utf8 P pwc s n 0 P.MB_CUR_MAX = ⟨-1, pwc, 0⟩)
    ∧ ((0xC2 ≤ byteAt s 0 ∧ byteAt s 0 ≤ 0xDF) → (0x80 ≤ byteAt s 1 ∧ byteAt s 1 ≤ 0xBF) →
        2 ≤ n →
        __mbrtowc_utf8 P pwc s n 0 P.MB_CUR_MAX
          = ⟨2, (byteAt s 0 - 0xC0) * 64 + (byteAt s 1 - 0x80), 0⟩)
    ∧ (∀ ps, (__mbrtowc_utf8 P pwc s n ps P.MB_CUR_MAX).ret ≤ 4) := by
  obtain ⟨hmax, h1, h2⟩ := hP
  have hn0 : ¬ (n = 0) := by omega
  refine ⟨?_, ?_, ?_, ?_, ?_⟩
  · intro ha
    have hc : ¬ (0xC2 ≤ byteAt s 0 ∧ byteAt s 0 ≤ 0xF4) := by omega
    simp [__mbrtowc_utf8, hn0, hb, hmax, hc, h1, utf8Decode, ha]
  · intro ha ps hps
    have hd : utf8Decode [ps % 256, byteAt s 0] = none := by
      simp only [utf8Decode]
      rw [if_neg (by omega)]
    simp [__mbrtowc_utf8, hn0, hb, hmax, hps, h2, hd]
  · intro ha
    have hc : ¬ (0xC2 ≤ byteAt s 0 ∧ byteAt s 0 ≤ 0xF4) := by omega
    have hd : ¬ (byteAt s 0 < 0x80) := by omega
    simp [__mbrtowc_utf8, hn0, hb, hmax, hc, h1, utf8Decode, hd]
  · intro ha hcont hn2
    have hc : 0xC2 ≤ byteAt s 0 ∧ byteAt s 0 ≤ 0xF4 := by omega
    have hn2a : ¬ (n < 2) := by omega
    have hd : utf8Decode [byteAt s 0, byteAt s 1]
        = some ((byteAt s 0 - 0xC0) * 64 + (byteAt s 1 - 0x80)) := by
      simp only [utf8Decode]
      rw [if_pos ⟨ha.1, ha.2, hcont.1, hcont.2⟩]
    simp [__mbrtowc_utf8, hn0, hb, hmax, hc, hn2a, h2, hd]
  · intro ps
    have h := mbrtowc_ret_cases P pwc s n ps
    simp only [mbrtowc, _rl_utf8_mbrtowc] at h
    omega

theorem utf8Host_follows (width : Nat → Int) : FollowsUtf8 (utf8Host width) :=
  ⟨by simp [utf8Host], fun _ => rfl, fun _ _ => rfl⟩

/-- C7 amended, witnessed on the two bytes C3 A9 of "é". -/
theorem C7_lead_byte_classification_witness :
    __mbrtowc_utf8 (utf8Host combiningWidth) 0 [0xC3, 0xA9] 2 0 4 = ⟨2, 0xE9, 0⟩ :=
  (C7_lead_byte_classification (utf8Host combiningWidth) (utf8Host_follows combiningWidth) 0
    [0xC3, 0xA9] 2 (by decide) (by decide)).2.2.2.1 (by decide) (by decide) (by decide)

theorem mbrtowc_utf8_cases (P : Platform) (pwc : Nat) (t : List Nat) (m q mb_max : Nat)
    (hm : ¬ (m = 0)) :
    __mbrtowc_utf8 P pwc t m q mb_max = ⟨0, 0, 0⟩
    ∨ (∃ x, __mbrtowc_utf8 P pwc t m q mb_max = ⟨-1, x, 0⟩)
    ∨ (__mbrtowc_utf8 P pwc t m q mb_max = ⟨-2, pwc, byteAt t 0⟩
        ∧ 0xC2 ≤ byteAt t 0 ∧ byteAt t 0 ≤ 0xF4)
    ∨ (∃ w, __mbrtowc_utf8 P pwc t m q mb_max = ⟨1, w, 0⟩)
    ∨ (∃ w, __mbrtowc_utf8 P pwc t m q mb_max = ⟨2, w, 0⟩) := by
  unfold __mbrtowc_utf8
  simp only [hm, if_false]
  split
  · exact Or.inl rfl
  · split
    · split
      · exact Or.inr (Or.inl ⟨_, rfl⟩)
      · exact Or.inr (Or.inr (Or.inr (Or.inr ⟨_, rfl⟩)))
    · split
      · rename_i hlead
        split
        · exact Or.inr (Or.inr (Or.inl ⟨rfl, hlead.2.1, hlead.2.2⟩))
        · split
          · exact Or.inr (Or.inl ⟨_, rfl⟩)
          · exact Or.inr (Or.inr (Or.inr (Or.inr ⟨_, rfl⟩)))
      · split
        · exact Or.inr (Or.inl ⟨_, rfl⟩)
        · exact Or.inr (Or.inr (Or.inr (Or.inl ⟨_, rfl⟩)))

/-- C8: for every buffer, every `remaining_len ≥ 1` and every incoming state,
the decoder returns -2 (Incomplete), -1 (Invalid), 0 (End) or a positive
length (Char); after the call the state is clean unless the outcome is
Incomplete, and in that case the state is exactly the lead byte offered, a
byte in 0xC2-0xF4.  The length query built on it always leaves a clean
state. -/
theorem C8_decode_state_discipline (P : Platform) (pwc : Nat) (s : List Nat) (n ps mb_max : Nat)
    (hn : 1 ≤ n) :
    ((__mbrtowc_utf8 P pwc s n ps mb_max).ret = -2 ∨ (__mbrtowc_utf8 P pwc s n ps mb_max).ret = -1
      ∨ (__mbrtowc_utf8 P pwc s n ps mb_max).ret = 0 ∨ 0 < (__mbrtowc_utf8 P pwc s n ps mb_max).ret)
    ∧ ((__mbrtowc_utf8 P pwc s n ps mb_max).ret ≠ -2 → (__mbrtowc_utf8 P pwc s n ps mb_max).ps = 0)
    ∧ ((__mbrtowc_utf8 P pwc s n ps mb_max).ps ≠ 0 → (__mbrtowc_utf8 P pwc s n ps mb_max).ret = -2)
    ∧ ((__mbrtowc_utf8 P pwc s n ps mb_max).ret = -2 →
        (__mbrtowc_utf8 P pwc s n ps mb_max).ps = byteAt s 0
        ∧ 0xC2 ≤ byteAt s 0 ∧ byteAt s 0 ≤ 0xF4)
    ∧ (∀ src ps0, (_rl_get_char_len P src ps0).2 = 0) := by
  have hn0 : ¬ (n = 0) := by omega
  refine ⟨?_, ?_, ?_, ?_, ?_⟩
  · rcases mbrtowc_utf8_cases P pwc s n ps mb_max hn0 with h | ⟨x, h⟩ | ⟨h, _⟩ | ⟨w, h⟩ | ⟨w, h⟩
    all_goals simp [h]
  · rcases mbrtowc_utf8_cases P pwc s n ps mb_max hn0 with h | ⟨x, h⟩ | ⟨h, _⟩ | ⟨w, h⟩ | ⟨w, h⟩
    all_goals simp [h]
  · rcases mbrtowc_utf8_cases P pwc s n ps mb_max hn0 with h | ⟨x, h⟩ | ⟨h, _⟩ | ⟨w, h⟩ | ⟨w, h⟩
    all_goals simp [h]
  · rcases mbrtowc_utf8_cases P pwc s n ps mb_max hn0 with h | ⟨x, h⟩ | ⟨h, h1⟩ | ⟨w, h⟩ | ⟨w, h⟩
    all_goals simp [h]
    exact h1
  · intro src ps0
    unfold _rl_get_char_len
    simp only [mbrlen, _rl_utf8_mbrlen]
    by_cases hz : strlen src = 0
    · simp [__mbrtowc_utf8, hz]
    · rcases mbrtowc_utf8_cases P 0 src (strlen src) ps0 P.MB_CUR_MAX hz with
        h | ⟨x, h⟩ | ⟨h, _⟩ | ⟨w, h⟩ | ⟨w, h⟩
      all_goals simp [h]

/-- C8, witnessed on the lone lead byte C3 with one byte available: the
outcome is Incomplete and the state holds C3. -/
theorem C8_decode_state_discipline_witness :
    (__mbrtowc_utf8 (utf8Host combiningWidth) 0 [0xC3] 1 0 4).ret = -2
    ∧ (__mbrtowc_utf8 (utf8Host combiningWidth) 0 [0xC3] 1 0 4).ps = 0xC3 :=
  ⟨by decide,
    ((C8_decode_state_discipline (utf8Host combiningWidth) 0 [0xC3] 1 0 4 (by decide)).2.2.2.1
      (by decide)).1⟩

theorem range_all_succ (w : Nat) (f : Nat → Bool) :
    (List.range (w - 1)).all (fun j => f (j + 1)) = true ↔ ∀ i : Nat, 0 < i → i < w → f i = true := by
  rw [List.all_eq_true]
  constructor
  · intro h i hi hw
    have := h (i - 1) (List.mem_range.mpr (by omega))
    have he : i - 1 + 1 = i := by omega
    rw [he] at this
    exact this
  · intro h j hj
    exact h (j + 1) (by omega) (by have := List.mem_range.mp hj; omega)

/-- C9: with both decode states clean, the comparator returns 1 exactly when
the length query returns the same positive length `w` at both positions and
the `w` bytes from `pos1` in `buf1` equal the `w` bytes from `pos2` in `buf2`;
it returns 0 whenever either length is not positive or the two lengths differ;
and it returns nothing but 0 or 1. -/
theorem C9_compare_chars (P : Platform) (buf1 : List Nat) (pos1 : Nat) (buf2 : List Nat)
    (pos2 : Nat) :
    (_rl_compare_chars P buf1 pos1 0 buf2 pos2 0 = 1 ↔
      ∃ w : Int, 0 < w
        ∧ (_rl_get_char_len P (buf1.drop pos1) 0).1 = w
        ∧ (_rl_get_char_len P (buf2.drop pos2) 0).1 = w
        ∧ ∀ i : Nat, (i : Int) < w → byteAt buf1 (pos1 + i) = byteAt buf2 (pos2 + i))
    ∧ (((_rl_get_char_len P (buf1.drop pos1) 0).1 ≤ 0
          ∨ (_rl_get_char_len P (buf2.drop pos2) 0).1 ≤ 0
          ∨ (_rl_get_char_len P (buf1.drop pos1) 0).1 ≠ (_rl_get_char_len P (buf2.drop pos2) 0).1) →
        _rl_compare_chars P buf1 pos1 0 buf2 pos2 0 = 0)
    ∧ (_rl_compare_chars P buf1 pos1 0 buf2 pos2 0 = 0
        ∨ _rl_compare_chars P buf1 pos1 0 buf2 pos2 0 = 1) := by
  unfold _rl_compare_chars
  generalize (_rl_get_char_len P (buf1.drop pos1) 0).1 = w1
  generalize (_rl_get_char_len P (buf2.drop pos2) 0).1 = w2
  simp only []
  split_ifs with h1 h2 h3 h4 h5
  · refine ⟨⟨fun h => absurd h (by decide), ?_⟩, fun _ => rfl, Or.inl rfl⟩
    rintro ⟨w, hw, hw1, _⟩
    omega
  · refine ⟨⟨fun h => absurd h (by decide), ?_⟩, fun _ => rfl, Or.inl rfl⟩
    rintro ⟨w, hw, _, hw2, _⟩
    omega
  · refine ⟨⟨fun h => absurd h (by decide), ?_⟩, fun _ => rfl, Or.inl rfl⟩
    rintro ⟨w, hw, hw1, hw2, _⟩
    omega
  · refine ⟨⟨fun h => absurd h (by decide), ?_⟩, fun _ => rfl, Or.inl rfl⟩
    rintro ⟨w, hw, _, _, hall⟩
    exact absurd (hall 0 (by omega)) h4
  · have h3a : w1 = w2 := not_not.mp h3
    have h4a : byteAt buf1 pos1 = byteAt buf2 pos2 := not_not.mp h4
    have h5a := (range_all_succ w1.toNat
      (fun i => byteAt buf1 (pos1 + i) == byteAt buf2 (pos2 + i))).mp h5
    refine ⟨⟨fun _ => ⟨w1, by omega, rfl, h3a.symm, ?_⟩, fun _ => rfl⟩, fun h => by omega,
      Or.inr rfl⟩
    intro i hi
    rcases Nat.eq_zero_or_pos i with h0 | h0
    · rw [h0]; exact h4a
    · exact beq_iff_eq.mp (h5a i h0 (by omega))
  · refine ⟨⟨fun h => absurd h (by decide), ?_⟩, fun h => by omega, Or.inl rfl⟩
    rintro ⟨w, hw, hw1, _, hall⟩
    exfalso
    apply h5
    apply (range_all_succ w1.toNat
      (fun i => byteAt buf1 (pos1 + i) == byteAt buf2 (pos2 + i))).mpr
    intro i _ hi
    exact beq_iff_eq.mpr (hall i (by omega))

/-- From a clean state the loop of the offset adjuster ends in a clean state,
whatever the bytes. -/
theorem adjustLoop_clean (P : Platform) (s : List Nat) (length point : Int) :
    ∀ (fuel : Nat) (pos : Int), (point - pos).toNat < fuel →
      ∃ pos1, adjustLoop P s length point fuel pos 0 = some (pos1, 0)
        ∧ point ≤ pos1 ∧ pos ≤ pos1 := by
  intro fuel
  induction fuel with
  | zero => intro pos h; omega
  | succ fuel ih =>
    intro pos hf
    rw [adjustLoop]
    by_cases hlt : pos < point
    · simp only [hlt, if_true, mbrlen_eq]
      rcases mbrtowc_clean_cases P 0 (s.drop pos.toNat) (length - pos).toNat with
        h | h | h | h | h
      · simp only [h.1]
        rw [if_pos (by decide)]
        obtain ⟨pos1, h1, h2, h3⟩ := ih (pos + 1) (by omega)
        exact ⟨pos1, h1, h2, by omega⟩
      · simp only [h.1]
        rw [if_pos (by decide)]
        obtain ⟨pos1, h1, h2, h3⟩ := ih (pos + 1) (by omega)
        exact ⟨pos1, h1, h2, by omega⟩
      · simp only [h.1, h.2.1]
        rw [if_neg (by decide), if_pos (by decide)]
        obtain ⟨pos1, h1, h2, h3⟩ := ih (pos + 1) (by omega)
        exact ⟨pos1, h1, h2, by omega⟩
      · simp only [h.1, h.2.1]
        rw [if_neg (by decide), if_neg (by decide)]
        obtain ⟨pos1, h1, h2, h3⟩ := ih (pos + 1) (by omega)
        exact ⟨pos1, h1, h2, by omega⟩
      · simp only [h.1, h.2.1]
        rw [if_neg (by decide), if_neg (by decide)]
        obtain ⟨pos1, h1, h2, h3⟩ := ih (pos + 2) (by omega)
        exact ⟨pos1, h1, h2, by omega⟩
    · exact ⟨pos, by simp only [hlt, if_false], by omega, le_refl pos⟩

/-- From a clean state the counting loop of the forward scan ends, in a clean
state and at a non-negative position, whatever the bytes and the flag. -/
theorem nextLoop_total (P : Platform) (s : List Nat) (flag : Int) :
    ∀ (fuel p : Nat) (count : Int) (wc : Nat), s.length - p < fuel →
      ∃ (p1 wc1 : Nat), nextLoop P s flag fuel (p : Int) count wc 0
        = some ((p1 : Int), wc1, 0) := by
  intro fuel
  induction fuel with
  | zero => intro p count wc h; omega
  | succ fuel ih =>
    intro p count wc hf
    rw [nextLoop]
    by_cases hc : 0 < count
    · simp only [hc, if_true, Int.toNat_ofNat, strlen_drop]
      by_cases hz : s.length - p = 0
      · exact ⟨p, wc, by simp only [hz, if_true]⟩
      · simp only [hz, if_false]
        have e1 : ((p : Nat) : Int) + 1 = ((p + 1 : Nat) : Int) := by push_cast; rfl
        have e2 : ((p : Nat) : Int) + 2 = ((p + 2 : Nat) : Int) := by push_cast; rfl
        rcases mbrtowc_clean_cases P wc (s.drop p) (s.length - p) with h | h | h | h | h
        · simp only [h.1]
          rw [if_pos (by decide), e1]
          exact ih _ _ _ (by omega)
        · simp only [h.1]
          rw [if_pos (by decide), e1]
          exact ih _ _ _ (by omega)
        · simp only [h.1, h.2.1]
          rw [if_neg (by decide), if_pos (by decide)]
          exact ⟨p, _, rfl⟩
        · simp only [h.1, h.2.1]
          rw [if_neg (by decide), if_neg (by decide), e1]
          split
          · split
            · exact ih _ _ _ (by omega)
            · exact ih _ _ _ (by omega)
          · exact ih _ _ _ (by omega)
        · simp only [h.1, h.2.1]
          rw [if_neg (by decide), if_neg (by decide), e2]
          split
          · split
            · exact ih _ _ _ (by omega)
            · exact ih _ _ _ (by omega)
          · exact ih _ _ _ (by omega)
    · exact ⟨p, wc, by simp only [hc, if_false]⟩

/-- The closing loop of the forward scan ends at a position where a decoding
from a clean state does not yield a zero-width character. -/
theorem skipLoop_exit (P : Platform) (s : List Nat) :
    ∀ (fuel p wc0 : Nat), s.length - p < fuel →
      ∃ r : Nat, skipLoop P s fuel (p : Int) (mbrtowc P wc0 (s.drop p) (strlen (s.drop p)) 0)
          = some (r : Int)
        ∧ ((mbrtowc P 0 (s.drop r) (strlen (s.drop r)) 0).ret = 0
          ∨ (mbrtowc P 0 (s.drop r) (strlen (s.drop r)) 0).ret = -1
          ∨ (mbrtowc P 0 (s.drop r) (strlen (s.drop r)) 0).ret = -2
          ∨ (0 < (mbrtowc P 0 (s.drop r) (strlen (s.drop r)) 0).ret
            ∧ P.WCWIDTH (mbrtowc P 0 (s.drop r) (strlen (s.drop r)) 0).wc ≠ 0)) := by
  intro fuel
  induction fuel with
  | zero => intro p wc0 h; omega
  | succ fuel ih =>
    intro p wc0 hf
    rw [skipLoop]
    have hrw := mbrtowc_ret_wc P wc0 (s.drop p) (strlen (s.drop p)) 0
    have e1 : ((p : Nat) : Int) + 1 = ((p + 1 : Nat) : Int) := by push_cast; rfl
    have e2 : ((p : Nat) : Int) + 2 = ((p + 2 : Nat) : Int) := by push_cast; rfl
    rcases mbrtowc_clean_cases P wc0 (s.drop p) (strlen (s.drop p)) with h | h | h | h | h
    · refine ⟨p, ?_, Or.inr (Or.inr (Or.inl (by rw [← hrw]; exact h.1)))⟩
      simp only [h.1]
      rw [if_neg (fun hc => absurd hc.2.1 (by decide))]
    · refine ⟨p, ?_, Or.inr (Or.inl (by rw [← hrw]; exact h.1))⟩
      simp only [h.1]
      rw [if_neg (fun hc => absurd hc.2.1 (by decide))]
    · refine ⟨p, ?_, Or.inl (by rw [← hrw]; exact h.1)⟩
      simp only [h.1]
      rw [if_neg (fun hc => absurd hc.1 (by decide))]
    · have hpos : 0 < (mbrtowc P 0 (s.drop p) (strlen (s.drop p)) 0).ret := by
        rw [← hrw, h.1]; decide
      have hwc := mbrtowc_wc_wc P wc0 (s.drop p) (strlen (s.drop p)) 0 hpos
      have hlen : 1 ≤ s.length - p := by have := h.2.2.1; rwa [strlen_drop] at this
      by_cases hw : P.WCWIDTH (mbrtowc P wc0 (s.drop p) (strlen (s.drop p)) 0).wc = 0
      · rw [if_pos ⟨by rw [h.1]; decide, by rw [h.1]; decide, hw⟩]
        simp only [h.1, h.2.1, e1, Int.toNat_ofNat]
        exact ih (p + 1) _ (by omega)
      · refine ⟨p, ?_, Or.inr (Or.inr (Or.inr ⟨hpos, by rw [← hwc]; exact hw⟩))⟩
        rw [if_neg (fun hc => hw hc.2.2)]
    · have hpos : 0 < (mbrtowc P 0 (s.drop p) (strlen (s.drop p)) 0).ret := by
        rw [← hrw, h.1]; decide
      have hwc := mbrtowc_wc_wc P wc0 (s.drop p) (strlen (s.drop p)) 0 hpos
      have hlen : 2 ≤ s.length - p := by have := h.2.2.1; rwa [strlen_drop] at this
      by_cases hw : P.WCWIDTH (mbrtowc P wc0 (s.drop p) (strlen (s.drop p)) 0).wc = 0
      · rw [if_pos ⟨by rw [h.1]; decide, by rw [h.1]; decide, hw⟩]
        simp only [h.1, h.2.1, e2, Int.toNat_ofNat]
        exact ih (p + 2) _ (by omega)
      · refine ⟨p, ?_, Or.inr (Or.inr (Or.inr ⟨hpos, by rw [← hwc]; exact hw⟩))⟩
        rw [if_neg (fun hc => hw hc.2.2)]

/-- C10: for every string, every seed inside it, every count of at least 1,
every non-zero flag and every width function, the forward scan with the
zero-width flag returns a position `r` that is not the start of a zero-width
character: a decoding at `r` from a clean state yields End (0), Invalid (-1),
Incomplete (-2), or a character of non-zero width.  On "a", U+0301 (CC 81),
"b", with U+0301 of width 0, one step from offset 0 returns 3. -/
theorem C10_zero_width_skip (P : Platform) (s : List Nat) (seed count flag : Int)
    (h0 : 0 ≤ seed) (h1 : seed ≤ (strlen s : Int)) (hc : 1 ≤ count) (hflag : flag ≠ 0) :
    (∃ r : Nat, _rl_find_next_mbchar P s seed count flag = some (r : Int)
      ∧ ((mbrtowc P 0 (s.drop r) (strlen (s.drop r)) 0).ret = 0
        ∨ (mbrtowc P 0 (s.drop r) (strlen (s.drop r)) 0).ret = -1
        ∨ (mbrtowc P 0 (s.drop r) (strlen (s.drop r)) 0).ret = -2
        ∨ (0 < (mbrtowc P 0 (s.drop r) (strlen (s.drop r)) 0).ret
          ∧ P.WCWIDTH (mbrtowc P 0 (s.drop r) (strlen (s.drop r)) 0).wc ≠ 0)))
    ∧ combiningWidth 0x301 = 0
    ∧ _rl_find_next_mbchar (utf8Host combiningWidth) aAcuteB 0 1 1 = some 3 := by
  refine ⟨?_, by decide, by decide⟩
  have hs0 : ¬ (seed < 0) := by omega
  have hc0 : ¬ (count ≤ 0) := by omega
  have hs1 : ¬ ((strlen s : Int) < seed) := by omega
  obtain ⟨pos1, hl, hge, _⟩ :=
    adjustLoop_clean P s (strlen s : Int) seed (seed.toNat + 1) 0 (by omega)
  have hadj : _rl_adjust_point P s seed 0 = some (pos1 - seed, 0) := by
    unfold _rl_adjust_point
    simp only [hs0, hs1, if_false, hl]
  have hp : seed + (pos1 - seed) = ((pos1.toNat : Nat) : Int) := by omega
  unfold _rl_find_next_mbchar _rl_find_next_mbchar_internal
  simp only [hs0, hc0, if_false, hadj, hp]
  obtain ⟨p1, wc1, hn⟩ := nextLoop_total P s flag (strlen s + 1) pos1.toNat
    (if seed < ((pos1.toNat : Nat) : Int) then count - 1 else count) 0 (by simp only [strlen]; omega)
  simp only [hn, hflag, ne_eq, not_false_eq_true, if_true, Int.toNat_ofNat]
  exact skipLoop_exit P s (strlen s + 1) p1 wc1 (by simp only [strlen]; omega)

/-- C10, witnessed on "a", U+0301, "b": one step from offset 0 with the flag
set. -/
theorem C10_zero_width_skip_witness :
    (∃ r : Nat, _rl_find_next_mbchar (utf8Host combiningWidth) aAcuteB 0 1 1 = some (r : Int)
      ∧ ((mbrtowc (utf8Host combiningWidth) 0 (aAcuteB.drop r) (strlen (aAcuteB.drop r)) 0).ret = 0
        ∨ (mbrtowc (utf8Host combiningWidth) 0 (aAcuteB.drop r) (strlen (aAcuteB.drop r)) 0).ret = -1
        ∨ (mbrtowc (utf8Host combiningWidth) 0 (aAcuteB.drop r) (strlen (aAcuteB.drop r)) 0).ret = -2
        ∨ (0 < (mbrtowc (utf8Host combiningWidth) 0 (aAcuteB.drop r) (strlen (aAcuteB.drop r)) 0).ret
          ∧ (utf8Host combiningWidth).WCWIDTH
              (mbrtowc (utf8Host combiningWidth) 0 (aAcuteB.drop r) (strlen (aAcuteB.drop r)) 0).wc
            ≠ 0)))
    ∧ combiningWidth 0x301 = 0
    ∧ _rl_find_next_mbchar (utf8Host combiningWidth) aAcuteB 0 1 1 = some 3 :=
  C10_zero_width_skip (utf8Host combiningWidth) aAcuteB 0 1 1 (by decide) (by decide) (by decide)
    (by decide)

/-! ## The forward scan from any offset -/

/-- The index of the first position of the walk at or after `seed` is unique. -/
theorem least_index_unique (P : Platform) (s : List Nat) (seed : Nat) {i j : Nat}
    (hi : seed ≤ bnd P s i) (hi1 : ∀ m, m < i → bnd P s m < seed)
    (hj : seed ≤ bnd P s j) (hj1 : ∀ m, m < j → bnd P s m < seed) : i = j := by
  rcases Nat.lt_trichotomy i j with h | h | h
  · have := hj1 i h; omega
  · exact h
  · have := hi1 j h; omega

theorem bnd_add_ge (P : Platform) (s : List Nat) (hs : ∀ b ∈ s, b ≠ 0) (i c : Nat) :
    min (bnd P s i + c) s.length ≤ bnd P s (i + c) := by
  induction c with
  | zero => simp
  | succ c ih =>
    have hidx : bnd P s (i + (c + 1)) = bnd P s (i + c + 1) := rfl
    rw [hidx]
    by_cases h : bnd P s (i + c) < s.length
    · have := bnd_succ_gt P s hs (i + c) h
      omega
    · have := bnd_succ_ge P s hs (i + c)
      omega

/-- Without the zero-width flag, the forward scan from an offset inside a
NUL-free string first moves to the first position of the walk at or after the
offset, which costs one step when it moves at all, and then walks the steps
that are left. -/
theorem find_next_walk (P : Platform) (s : List Nat) (hs : ∀ b ∈ s, b ≠ 0) (seed : Nat)
    (hseed : seed ≤ s.length) (count : Nat) (hc : 1 ≤ count) :
    ∃ j, seed ≤ bnd P s j ∧ (∀ m, m < j → bnd P s m < seed)
      ∧ _rl_adjust_point P s (seed : Int) 0 = some ((bnd P s j : Int) - (seed : Int), 0)
      ∧ _rl_find_next_mbchar P s (seed : Int) (count : Int) 0
        = some ((bnd P s (j + (if seed < bnd P s j then count - 1 else count)) : Nat) : Int) := by
  obtain ⟨j, hadj, hj1, hj2⟩ := adjust_walk P s hs seed hseed
  refine ⟨j, hj1, hj2, hadj, ?_⟩
  have hs0 : ¬ ((seed : Int) < 0) := by omega
  have hc0 : ¬ ((count : Int) ≤ 0) := by omega
  have hp : (seed : Int) + ((bnd P s j : Int) - (seed : Int)) = (bnd P s j : Int) := by omega
  unfold _rl_find_next_mbchar _rl_find_next_mbchar_internal
  simp only [hs0, hc0, if_false, hadj, hp]
  have hfuel : s.length - bnd P s j < strlen s + 1 := by simp only [strlen]; omega
  by_cases hlt : seed < bnd P s j
  · have hlt1 : (seed : Int) < (bnd P s j : Int) := by omega
    have hcc : (count : Int) - 1 = ((count - 1 : Nat) : Int) := by omega
    obtain ⟨wc1, hw⟩ := nextLoop_walk P s hs (strlen s + 1) j (count - 1) 0 hfuel
    simp only [hlt1, hlt, if_true, hcc, hw]
    simp
  · have hlt1 : ¬ ((seed : Int) < (bnd P s j : Int)) := by omega
    obtain ⟨wc1, hw⟩ := nextLoop_walk P s hs (strlen s + 1) j count 0 hfuel
    simp only [hlt1, hlt, if_false, hw]
    simp

theorem bnd_add_congr (P : Platform) (s : List Nat) {i j : Nat} (h : bnd P s i = bnd P s j)
    (c : Nat) : bnd P s (i + c) = bnd P s (j + c) := by
  induction c with
  | zero => exact h
  | succ c ih =>
    have e1 : bnd P s (i + (c + 1)) = nextB P s (bnd P s (i + c)) := rfl
    have e2 : bnd P s (j + (c + 1)) = nextB P s (bnd P s (j + c)) := rfl
    rw [e1, e2, ih]

/-- C19: for a NUL-free string, a seed inside it and a count of at least 1,
the forward scan without the zero-width flag returns a position `r`; when the
seed is not a boundary (`adjust (s, seed) = d > 0`) the scan from `seed + d`
with one step less returns the same `r`, and one step from `seed` returns
`seed + d`; when the seed is a boundary (`d = 0`), reached by `j` steps from
offset 0, no step is lost: `r` is the position `j + count` steps from 0. -/
theorem C19_unaligned_seed_consumes_one_step (P : Platform) (s : List Nat)
    (hs : ∀ b ∈ s, b ≠ 0) (seed count : Int) (h0 : 0 ≤ seed) (h1 : seed ≤ (strlen s : Int))
    (hc : 1 ≤ count) :
    ∃ d ps r, _rl_adjust_point P s seed 0 = some (d, ps)
      ∧ _rl_find_next_mbchar P s seed count 0 = some r
      ∧ (0 < d → _rl_find_next_mbchar P s (seed + d) (count - 1) 0 = some r
          ∧ _rl_find_next_mbchar P s seed 1 0 = some (seed + d))
      ∧ (d = 0 → ∀ j : Int, 0 ≤ j → _rl_find_next_mbchar P s 0 j 0 = some seed →
          _rl_find_next_mbchar P s 0 (j + count) 0 = some r) := by
  have hseed : seed.toNat ≤ s.length := by simp only [strlen] at h1; omega
  have hcn : 1 ≤ count.toNat := by omega
  have e1 : ((seed.toNat : Nat) : Int) = seed := by omega
  have e2 : ((count.toNat : Nat) : Int) = count := by omega
  obtain ⟨j, hj1, hj2, hadj, hr⟩ := find_next_walk P s hs seed.toNat hseed count.toNat hcn
  rw [e1] at hadj
  rw [e1, e2] at hr
  refine ⟨_, _, _, hadj, hr, ?_, ?_⟩
  · intro hd
    have hlt : seed.toNat < bnd P s j := by omega
    have hsum : seed + ((bnd P s j : Int) - seed) = (bnd P s j : Int) := by omega
    rw [hsum]
    simp only [hlt, if_true]
    constructor
    · by_cases hone : count = 1
      · have hz : count.toNat - 1 = 0 := by omega
        rw [hz, hone]
        simp [_rl_find_next_mbchar, _rl_find_next_mbchar_internal]
      · have hc2 : 1 ≤ count.toNat - 1 := by omega
        have e3 : (((count.toNat - 1 : Nat)) : Int) = count - 1 := by omega
        obtain ⟨j1, hk1, hk2, _, hr1⟩ :=
          find_next_walk P s hs (bnd P s j) (bnd_le_length P s hs j) (count.toNat - 1) hc2
        have hjj : j1 = j :=
          least_index_unique P s (bnd P s j) hk1 hk2 (Nat.le_refl _)
            (fun m hm => by have := hj2 m hm; omega)
        rw [e3, hjj] at hr1
        simp only [lt_self_iff_false, if_false] at hr1
        exact hr1
    · obtain ⟨j1, hk1, hk2, _, hr1⟩ := find_next_walk P s hs seed.toNat hseed 1 (Nat.le_refl 1)
      have hjj : j1 = j := least_index_unique P s seed.toNat hk1 hk2 hj1 hj2
      rw [e1, hjj] at hr1
      simp only [hlt, if_true, Nat.sub_self, Nat.add_zero, Nat.cast_one] at hr1
      exact hr1
  · intro hd j0 hj0 hfw
    have heq : bnd P s j = seed.toNat := by omega
    have hnlt : ¬ (seed.toNat < bnd P s j) := by omega
    simp only [hnlt, if_false]
    rw [find_next_zero_int P s hs j0] at hfw
    have hb : bnd P s j0.toNat = bnd P s j := by
      have := Option.some.inj hfw
      omega
    rw [find_next_zero_int P s hs (j0 + count)]
    have hidx : (j0 + count).toNat = j0.toNat + count.toNat := by omega
    rw [hidx, bnd_add_congr P s hb]

/-- C19, witnessed on "café" from offset 4, inside the two bytes of "é". -/
theorem C19_unaligned_seed_consumes_one_step_witness :
    ∃ d ps r, _rl_adjust_point (utf8Host combiningWidth) cafe 4 0 = some (d, ps)
      ∧ _rl_find_next_mbchar (utf8Host combiningWidth) cafe 4 1 0 = some r
      ∧ (0 < d → _rl_find_next_mbchar (utf8Host combiningWidth) cafe (4 + d) (1 - 1) 0 = some r
          ∧ _rl_find_next_mbchar (utf8Host combiningWidth) cafe 4 1 0 = some (4 + d))
      ∧ (d = 0 → ∀ j : Int, 0 ≤ j →
          _rl_find_next_mbchar (utf8Host combiningWidth) cafe 0 j 0 = some 4 →
          _rl_find_next_mbchar (utf8Host combiningWidth) cafe 0 (j + 1) 0 = some r) :=
  C19_unaligned_seed_consumes_one_step (utf8Host combiningWidth) cafe (by decide) 4 1
    (by decide) (by decide) (by decide)

/-- On a NUL-free string the counting loop of the forward scan, with or
without the zero-width flag, ends inside the string, not before where it
started, and beyond it when a step was asked for and the end not reached. -/
theorem nextLoop_bounds (P : Platform) (s : List Nat) (hs : ∀ b ∈ s, b ≠ 0) (flag : Int) :
    ∀ (fuel p : Nat) (count : Int) (wc : Nat), p ≤ s.length → s.length - p < fuel →
      ∃ (p1 wc1 : Nat), nextLoop P s flag fuel (p : Int) count wc 0 = some ((p1 : Int), wc1, 0)
        ∧ p ≤ p1 ∧ p1 ≤ s.length ∧ (0 < count → p < s.length → p < p1) := by
  intro fuel
  induction fuel with
  | zero => intro p count wc _ h; omega
  | succ fuel ih =>
    intro p count wc hp hf
    rw [nextLoop]
    by_cases hc : 0 < count
    · simp only [hc, if_true, Int.toNat_ofNat, strlen_drop]
      by_cases hz : s.length - p = 0
      · exact ⟨p, wc, by simp only [hz, if_true], Nat.le_refl p, hp, fun _ h => by omega⟩
      · simp only [hz, if_false]
        have hlt : p < s.length := by omega
        obtain ⟨hstep, hs1, hs2⟩ := scan_step P s hs p hlt wc
        rcases hstep with h | h
        · simp only [h.1, if_true]
          have e1 : ((p : Nat) : Int) + 1 = ((p + 1 : Nat) : Int) := by push_cast; rfl
          rw [e1]
          obtain ⟨p1, wc1, hr, hr1, hr2, _⟩ := ih (p + 1) (count - 1)
            (mbrtowc P wc (s.drop p) (s.length - p) 0).wc (by omega) (by omega)
          exact ⟨p1, wc1, hr, by omega, hr2, fun _ _ => by omega⟩
        · simp only [h.1, h.2.1, h.2.2.1, if_false, Bool.false_eq_true]
          have e1 : ((p : Nat) : Int) + (mbrtowc P wc (s.drop p) (s.length - p) 0).ret
              = ((p + stepLen P (s.drop p) : Nat) : Int) := by
            rw [h.2.2.2]; push_cast; rfl
          rw [e1]
          have key : ∀ cnt : Int, ∃ (p1 wc1 : Nat),
              nextLoop P s flag fuel ((p + stepLen P (s.drop p) : Nat) : Int) cnt
                (mbrtowc P wc (s.drop p) (s.length - p) 0).wc 0 = some ((p1 : Int), wc1, 0)
              ∧ p ≤ p1 ∧ p1 ≤ s.length ∧ p < p1 := by
            intro cnt
            obtain ⟨p1, wc1, hr, hr1, hr2, _⟩ := ih (p + stepLen P (s.drop p)) cnt
              (mbrtowc P wc (s.drop p) (s.length - p) 0).wc hs2 (by omega)
            exact ⟨p1, wc1, hr, by omega, hr2, by omega⟩
          split
          · split
            · obtain ⟨p1, wc1, k1, k2, k3, k4⟩ := key count
              exact ⟨p1, wc1, k1, k2, k3, fun _ _ => k4⟩
            · obtain ⟨p1, wc1, k1, k2, k3, k4⟩ := key (count - 1)
              exact ⟨p1, wc1, k1, k2, k3, fun _ _ => k4⟩
          · obtain ⟨p1, wc1, k1, k2, k3, k4⟩ := key (count - 1)
            exact ⟨p1, wc1, k1, k2, k3, fun _ _ => k4⟩
    · exact ⟨p, wc, by simp only [hc, if_false], Nat.le_refl p, hp, fun h => absurd h hc⟩

/-- The closing loop of the forward scan ends inside the string, not before
where it started. -/
theorem skipLoop_bounds (P : Platform) (s : List Nat) :
    ∀ (fuel p wc0 : Nat), p ≤ s.length → s.length - p < fuel →
      ∃ r : Nat, skipLoop P s fuel (p : Int) (mbrtowc P wc0 (s.drop p) (strlen (s.drop p)) 0)
          = some (r : Int) ∧ p ≤ r ∧ r ≤ s.length := by
  intro fuel
  induction fuel with
  | zero => intro p wc0 _ h; omega
  | succ fuel ih =>
    intro p wc0 hp hf
    rw [skipLoop]
    have e1 : ((p : Nat) : Int) + 1 = ((p + 1 : Nat) : Int) := by push_cast; rfl
    have e2 : ((p : Nat) : Int) + 2 = ((p + 2 : Nat) : Int) := by push_cast; rfl
    rcases mbrtowc_clean_cases P wc0 (s.drop p) (strlen (s.drop p)) with h | h | h | h | h
    · refine ⟨p, ?_, Nat.le_refl p, hp⟩
      simp only [h.1]
      rw [if_neg (fun hc => absurd hc.2.1 (by decide))]
    · refine ⟨p, ?_, Nat.le_refl p, hp⟩
      simp only [h.1]
      rw [if_neg (fun hc => absurd hc.2.1 (by decide))]
    · refine ⟨p, ?_, Nat.le_refl p, hp⟩
      simp only [h.1]
      rw [if_neg (fun hc => absurd hc.1 (by decide))]
    · have hlen : 1 ≤ s.length - p := by have := h.2.2.1; rwa [strlen_drop] at this
      by_cases hw : P.WCWIDTH (mbrtowc P wc0 (s.drop p) (strlen (s.drop p)) 0).wc = 0
      · rw [if_pos ⟨by rw [h.1]; decide, by rw [h.1]; decide, hw⟩]
        simp only [h.1, h.2.1, e1, Int.toNat_ofNat]
        obtain ⟨r, hr, hr1, hr2⟩ := ih (p + 1)
          (mbrtowc P wc0 (s.drop p) (strlen (s.drop p)) 0).wc (by omega) (by omega)
        exact ⟨r, hr, by omega, hr2⟩
      · refine ⟨p, ?_, Nat.le_refl p, hp⟩
        rw [if_neg (fun hc => hw hc.2.2)]
    · have hlen : 2 ≤ s.length - p := by have := h.2.2.1; rwa [strlen_drop] at this
      by_cases hw : P.WCWIDTH (mbrtowc P wc0 (s.drop p) (strlen (s.drop p)) 0).wc = 0
      · rw [if_pos ⟨by rw [h.1]; decide, by rw [h.1]; decide, hw⟩]
        simp only [h.1, h.2.1, e2, Int.toNat_ofNat]
        obtain ⟨r, hr, hr1, hr2⟩ := ih (p + 2)
          (mbrtowc P wc0 (s.drop p) (strlen (s.drop p)) 0).wc (by omega) (by omega)
        exact ⟨r, hr, by omega, hr2⟩
      · refine ⟨p, ?_, Nat.le_refl p, hp⟩
        rw [if_neg (fun hc => hw hc.2.2)]

/-- C20: for a NUL-free string and either value of the zero-width flag: a
count of 0 or less returns `max (seed, 0)`; for a seed inside the string and
a count of at least 1 the forward scan returns `r` with
`seed ≤ r ≤ strlen (s)`, with `seed < r` when the seed is before the end, and,
with the flag clear, `min (seed + count, strlen (s)) ≤ r`. -/
theorem C20_forward_scan_bounds (P : Platform) (s : List Nat) (hs : ∀ b ∈ s, b ≠ 0)
    (seed count flag : Int) :
    (count ≤ 0 → _rl_find_next_mbchar P s seed count flag = some (max seed 0))
    ∧ (0 ≤ seed → seed ≤ (strlen s : Int) → 1 ≤ count →
        ∃ r, _rl_find_next_mbchar P s seed count flag = some r
          ∧ seed ≤ r ∧ r ≤ (strlen s : Int)
          ∧ (seed < (strlen s : Int) → seed < r)
          ∧ (flag = 0 → min (seed + count) (strlen s : Int) ≤ r)) := by
  constructor
  · intro hc
    unfold _rl_find_next_mbchar _rl_find_next_mbchar_internal
    simp only [hc, if_true]
    by_cases h : seed < 0
    · simp only [h, if_true]; congr 1; omega
    · simp only [h, if_false]; congr 1; omega
  · intro h0 h1 hc
    simp only [strlen] at h1 ⊢
    have hseed : seed.toNat ≤ s.length := by omega
    have hcn : 1 ≤ count.toNat := by omega
    have e1 : ((seed.toNat : Nat) : Int) = seed := by omega
    have e2 : ((count.toNat : Nat) : Int) = count := by omega
    by_cases hflag : flag = 0
    · subst hflag
      obtain ⟨j, hj1, hj2, _, hr⟩ := find_next_walk P s hs seed.toNat hseed count.toNat hcn
      rw [e1, e2] at hr
      refine ⟨_, hr, ?_, ?_, ?_, ?_⟩
      · have := bnd_mono P s hs
          (Nat.le_add_right j (if seed.toNat < bnd P s j then count.toNat - 1 else count.toNat))
        omega
      · have := bnd_le_length P s hs
          (j + (if seed.toNat < bnd P s j then count.toNat - 1 else count.toNat))
        omega
      · intro hlt
        by_cases hb : seed.toNat < bnd P s j
        · have := bnd_mono P s hs
            (Nat.le_add_right j (if seed.toNat < bnd P s j then count.toNat - 1 else count.toNat))
          omega
        · simp only [hb, if_false]
          have := bnd_add_ge P s hs j count.toNat
          omega
      · intro _
        by_cases hb : seed.toNat < bnd P s j
        · simp only [hb, if_true]
          have := bnd_add_ge P s hs j (count.toNat - 1)
          omega
        · simp only [hb, if_false]
          have := bnd_add_ge P s hs j count.toNat
          omega
    · obtain ⟨j, hadj, hj1, hj2⟩ := adjust_walk P s hs seed.toNat hseed
      rw [e1] at hadj
      have hs0 : ¬ (seed < 0) := by omega
      have hc0 : ¬ (count ≤ 0) := by omega
      have hp : seed + ((bnd P s j : Int) - seed) = (bnd P s j : Int) := by omega
      have hle := bnd_le_length P s hs j
      obtain ⟨p1, wc1, hn, hn1, hn2, hn3⟩ := nextLoop_bounds P s hs flag (strlen s + 1)
        (bnd P s j) (if seed < (bnd P s j : Int) then count - 1 else count) 0 hle
        (by simp only [strlen]; omega)
      obtain ⟨r, hr, hr1, hr2⟩ := skipLoop_bounds P s (strlen s + 1) p1 wc1 hn2
        (by simp only [strlen]; omega)
      refine ⟨(r : Int), ?_, by omega, by omega, ?_, fun h => absurd h hflag⟩
      · unfold _rl_find_next_mbchar _rl_find_next_mbchar_internal
        simp only [hs0, hc0, if_false, hadj, hp, hn, hflag, ne_eq, not_false_eq_true, if_true,
          Int.toNat_ofNat]
        exact hr
      · intro hlt
        by_cases hb : seed < (bnd P s j : Int)
        · omega
        · simp only [hb, if_false] at hn3
          have := hn3 (by omega) (by omega)
          omega

/-- C20, witnessed on "a", U+0301, "b" with the zero-width flag set. -/
theorem C20_forward_scan_bounds_witness :
    ∃ r, _rl_find_next_mbchar (utf8Host combiningWidth) aAcuteB 0 1 1 = some r
      ∧ (0 : Int) ≤ r ∧ r ≤ (strlen aAcuteB : Int)
      ∧ ((0 : Int) < (strlen aAcuteB : Int) → 0 < r)
      ∧ ((1 : Int) = 0 → min ((0 : Int) + 1) (strlen aAcuteB : Int) ≤ r) :=
  (C20_forward_scan_bounds (utf8Host combiningWidth) aAcuteB (by decide) 0 1 1).2
    (by decide) (by decide) (by decide)

/-! ## Steps of the walk read at most two bytes -/

/-- A scanning step reads the first two bytes only. -/
theorem stepLen_two_local (P : Platform) (x y : Nat) (r : List Nat) :
    stepLen P (x :: y :: r) = stepLen P [x, y] := by
  have h1 : ¬ (r.length + 1 + 1 = 0) := by omega
  have h2 : ¬ (r.length + 1 + 1 < 2) := by omega
  simp [stepLen, mbrtowc, _rl_utf8_mbrtowc, __mbrtowc_utf8, strlen, byteAt, h1, h2]

/-- A byte other than NUL that is not a lead byte 0xC2..0xF4 is one step,
whatever follows it and whatever the host. -/
theorem stepLen_single (P : Platform) (x : Nat) (r : List Nat) (hx : x ≠ 0)
    (hlead : ¬ (0xC2 ≤ x ∧ x ≤ 0xF4)) : stepLen P (x :: r) = 1 := by
  have h1 : ¬ (r.length + 1 = 0) := by omega
  unfold stepLen mbrtowc _rl_utf8_mbrtowc __mbrtowc_utf8
  simp only [strlen, byteAt, List.length_cons, h1, if_false, List.getD_cons_zero, hx,
    Nat.zero_mod, ne_eq, not_true_eq_false, and_false, hlead]
  cases P.MultiByteToWideChar [x] <;> simp [MB_INVALIDCH]

/-- A lead byte 0xC2..0xF4 that ends the string is one step, whatever the
host. -/
theorem stepLen_lone_lead (P : Platform) (x : Nat) (hx : x ≠ 0) : stepLen P [x] = 1 := by
  have h := mbrtowc_clean_cases P 0 [x] 1
  have hb : byteAt [x] 0 ≠ 0 := by simpa [byteAt] using hx
  unfold stepLen
  simp only [strlen, List.length_singleton]
  rcases h with h | h | h | h | h
  · simp [h.1, MB_INVALIDCH]
  · simp [h.1, MB_INVALIDCH]
  · exact absurd h.2.2.2 hb
  · simp [h.1, MB_INVALIDCH]
  · omega

/-- On a host that follows UTF-8 a well-formed two-byte character is one step
of two bytes. -/
theorem stepLen_two_byte (P : Platform) (hP : FollowsUtf8 P) (b0 b1 : Nat) (r : List Nat)
    (h0 : 0xC2 ≤ b0 ∧ b0 ≤ 0xDF) (h1 : 0x80 ≤ b1 ∧ b1 ≤ 0xBF) :
    stepLen P (b0 :: b1 :: r) = 2 := by
  obtain ⟨hmax, _, h2⟩ := hP
  have hb : b0 ≠ 0 := by omega
  have hlead : 0xC2 ≤ b0 ∧ b0 ≤ 0xF4 := by omega
  have hd : utf8Decode [b0, b1] = some ((b0 - 0xC0) * 64 + (b1 - 0x80)) := by
    simp only [utf8Decode]
    rw [if_pos ⟨h0.1, h0.2, h1.1, h1.2⟩]
  rw [stepLen_two_local]
  simp [stepLen, mbrtowc, _rl_utf8_mbrtowc, __mbrtowc_utf8, strlen, byteAt, hb, hmax, hlead,
    h2, hd, MB_INVALIDCH]

/-- C14 as stated fails: the string is the lone lead byte C3, so `t = 0`; the
decoding there is Incomplete (-2), and the forward scan of one step returns 1,
a position greater than `t`. -/
theorem C14_counterexample :
    (mbrtowc (utf8Host combiningWidth) 0 [0xC3] 1 0).ret = -2
    ∧ _rl_find_next_mbchar (utf8Host combiningWidth) [0xC3] 0 1 0 = some 1 := by
  constructor <;> decide

/-- C14, amended: for a NUL-free string whose last byte, at offset `t`, is a
lone lead byte 0xC2..0xF4, on a host with `MB_CUR_MAX > 1`: the decoding at `t`
is Incomplete (-2) and leaves the lead byte pending, and the forward scan
treats it like an invalid byte, as a character of one byte: the scan from 0
never returns a position greater than `t + 1 = strlen (s)`, a scan of `count ≥ 0`
steps that has reached `t` moves to `t + 1` with one more step, and a scan of at least
`strlen (s)` steps returns `t + 1`. -/
theorem C14_incomplete_is_one_step (P : Platform) (hmax : 1 < P.MB_CUR_MAX) (pre : List Nat)
    (b : Nat) (hpre : ∀ x ∈ pre, x ≠ 0) (hb : 0xC2 ≤ b ∧ b ≤ 0xF4) (count : Int) :
    (mbrtowc P 0 ((pre ++ [b]).drop pre.length) (strlen ((pre ++ [b]).drop pre.length)) 0).ret = -2
    ∧ (mbrtowc P 0 ((pre ++ [b]).drop pre.length) (strlen ((pre ++ [b]).drop pre.length)) 0).ps = b
    ∧ (∃ r, _rl_find_next_mbchar P (pre ++ [b]) 0 count 0 = some r
        ∧ r ≤ (pre.length : Int) + 1
        ∧ ((pre.length : Int) + 1 ≤ count → r = (pre.length : Int) + 1))
    ∧ (0 ≤ count → _rl_find_next_mbchar P (pre ++ [b]) 0 count 0 = some (pre.length : Int) →
        _rl_find_next_mbchar P (pre ++ [b]) 0 (count + 1) 0 = some ((pre.length : Int) + 1)) := by
  have hs : ∀ x ∈ pre ++ [b], x ≠ 0 := by
    intro x hx
    rcases List.mem_append.mp hx with h | h
    · exact hpre x h
    · have := List.mem_singleton.mp h; omega
  have hb0 : b ≠ 0 := by omega
  have hlen : (pre ++ [b]).length = pre.length + 1 := by simp
  have hdrop : (pre ++ [b]).drop pre.length = [b] := List.drop_left pre [b]
  rw [hdrop]
  refine ⟨?_, ?_, ?_, ?_⟩
  · simp [mbrtowc, _rl_utf8_mbrtowc, __mbrtowc_utf8, strlen, byteAt, hb0, hmax, hb]
  · simp [mbrtowc, _rl_utf8_mbrtowc, __mbrtowc_utf8, strlen, byteAt, hb0, hmax, hb]
  · refine ⟨_, find_next_zero_int P _ hs count, ?_, ?_⟩
    · have := bnd_le_length P _ hs count.toNat
      omega
    · intro hc
      have h1 := bnd_le_length P _ hs count.toNat
      have h2 := bnd_ge_index P _ hs count.toNat
      omega
  · intro hc h
    rw [find_next_zero_int P _ hs count] at h
    have h1 : bnd P (pre ++ [b]) count.toNat = pre.length := by
      have := Option.some.inj h
      omega
    rw [find_next_zero_int P _ hs (count + 1)]
    have hidx : (count + 1).toNat = count.toNat + 1 := by omega
    rw [hidx, bnd, h1, nextB_of_lt P _ _ (by omega), hdrop, stepLen_lone_lead P b hb0]
    simp

/-- C14 amended, witnessed on the lone lead byte C3. -/
theorem C14_incomplete_is_one_step_witness :
    ∃ r, _rl_find_next_mbchar (utf8Host combiningWidth) ([] ++ [0xC3]) 0 5 0 = some r
      ∧ r ≤ (([] : List Nat).length : Int) + 1
      ∧ ((([] : List Nat).length : Int) + 1 ≤ 5 → r = (([] : List Nat).length : Int) + 1) :=
  (C14_incomplete_is_one_step (utf8Host combiningWidth) (by decide) [] 0xC3 (by decide)
    (by decide) 5).2.2.1

/-! ## Strings of well-formed characters -/

theorem utf8Char_facts (c : List Nat) (h : utf8Char c = true) :
    c ≠ [] ∧ (∀ b ∈ c, b ≠ 0) ∧ (∀ b, c.getLast? = some b → ¬ (0xC2 ≤ b ∧ b ≤ 0xF4)) := by
  rcases c with _ | ⟨b0, _ | ⟨b1, _ | ⟨b2, _ | ⟨b3, _ | ⟨b4, r⟩⟩⟩⟩⟩
  · simp [utf8Char] at h
  · simp only [utf8Char, decide_eq_true_eq] at h
    refine ⟨by simp, ?_, ?_⟩
    · intro b hb; simp at hb; omega
    · intro b hb; simp at hb; omega
  · simp only [utf8Char, isCont, Bool.and_eq_true, decide_eq_true_eq] at h
    refine ⟨by simp, ?_, ?_⟩
    · intro b hb; simp at hb; omega
    · intro b hb; simp at hb; omega
  · simp only [utf8Char, isCont, Bool.and_eq_true, decide_eq_true_eq] at h
    refine ⟨by simp, ?_, ?_⟩
    · intro b hb; simp at hb; omega
    · intro b hb; simp at hb; omega
  · simp only [utf8Char, isCont, Bool.and_eq_true, decide_eq_true_eq] at h
    refine ⟨by simp, ?_, ?_⟩
    · intro b hb; simp at hb; omega
    · intro b hb; simp at hb; omega
  · simp [utf8Char] at h

theorem flatten_ne_zero (chars : List (List Nat)) (hv : ∀ c ∈ chars, utf8Char c = true) :
    ∀ b ∈ chars.flatten, b ≠ 0 := by
  intro b hb
  obtain ⟨c, hc, hbc⟩ := List.mem_flatten.mp hb
  exact (utf8Char_facts c (hv c hc)).2.1 b hbc

/-- On a host that follows UTF-8, a one-byte or two-byte character at the head
of the rest of a string is one step of its length. -/
theorem stepLen_short (P : Platform) (hP : FollowsUtf8 P) (c r : List Nat)
    (hc : shortUtf8Char c = true) : stepLen P (c ++ r) = c.length := by
  rcases c with _ | ⟨b0, _ | ⟨b1, _ | ⟨b2, t⟩⟩⟩
  · simp [shortUtf8Char, utf8Char] at hc
  · simp only [shortUtf8Char, utf8Char, Bool.and_eq_true, decide_eq_true_eq] at hc
    exact stepLen_single P b0 r (by omega) (by omega)
  · simp only [shortUtf8Char, utf8Char, isCont, Bool.and_eq_true, decide_eq_true_eq] at hc
    exact stepLen_two_byte P hP b0 b1 r hc.1.1 hc.1.2
  · simp [shortUtf8Char] at hc

theorem short_walk (P : Platform) (hP : FollowsUtf8 P) (chars : List (List Nat))
    (hv : ∀ c ∈ chars, shortUtf8Char c = true) (k : Nat) :
    bnd P chars.flatten k = ((chars.take k).flatten).length := by
  induction k with
  | zero => simp [bnd]
  | succ k ih =>
    rw [bnd, ih]
    by_cases hk : k < chars.length
    · have hsplit : chars.flatten
          = (chars.take k).flatten ++ (chars[k] ++ (chars.drop (k + 1)).flatten) := by
        conv_lhs => rw [← List.take_append_drop k chars]
        rw [List.flatten_append, List.drop_eq_getElem_cons hk, List.flatten_cons]
      have hc := hv chars[k] (List.getElem_mem hk)
      have hne : chars[k] ≠ [] := by
        intro h0
        rw [h0] at hc
        simp [shortUtf8Char, utf8Char] at hc
      have hpos : 0 < chars[k].length := List.length_pos.mpr hne
      have hlt : ((chars.take k).flatten).length < chars.flatten.length := by
        rw [hsplit]
        simp only [List.length_append]
        omega
      have hdrop : chars.flatten.drop ((chars.take k).flatten).length
          = chars[k] ++ (chars.drop (k + 1)).flatten := by
        conv_lhs => rw [hsplit]
        exact List.drop_left _ _
      rw [nextB_of_lt P _ _ hlt, hdrop, stepLen_short P hP _ _ hc]
      rw [← List.take_concat_get chars k hk, List.concat_eq_append, List.flatten_append]
      simp
    · have hk1 : chars.length ≤ k := Nat.not_lt.mp hk
      rw [List.take_of_length_le hk1, List.take_of_length_le (Nat.le_succ_of_le hk1)]
      exact nextB_of_ge P _ _ (Nat.le_refl _)

/-- C15: on a host that follows UTF-8, for a string that is the concatenation
of characters each of which is one ASCII byte other than NUL or one
well-formed two-byte UTF-8 character, and for every `k ≥ 0` (a negative `k`
counts as 0), the forward scan of `k` steps from offset 0 returns the total
byte length of the first `min (k, n)` characters; on "café" this is 3 for `k = 3` and 5 for `k = 4`. -/
theorem C15_short_characters_scan (P : Platform) (hP : FollowsUtf8 P) (chars : List (List Nat))
    (hv : ∀ c ∈ chars, shortUtf8Char c = true) (k : Int) :
    _rl_find_next_mbchar P chars.flatten 0 k 0
      = some ((((chars.take (min k.toNat chars.length)).flatten).length : Nat) : Int)
    ∧ _rl_find_next_mbchar (utf8Host combiningWidth) cafe 0 3 0 = some 3
    ∧ _rl_find_next_mbchar (utf8Host combiningWidth) cafe 0 4 0 = some 5 := by
  refine ⟨?_, by decide, by decide⟩
  have hv1 : ∀ c ∈ chars, utf8Char c = true := by
    intro c hc
    have := hv c hc
    simp only [shortUtf8Char, Bool.and_eq_true] at this
    exact this.1
  rw [find_next_zero_int P _ (flatten_ne_zero chars hv1) k, short_walk P hP chars hv]
  congr 3
  rcases Nat.le_total k.toNat chars.length with h | h
  · rw [Nat.min_eq_left h]
  · rw [Nat.min_eq_right h, List.take_of_length_le h, List.take_of_length_le (Nat.le_refl _)]

/-- C15, witnessed on "café" as the characters c, a, f, é with `k = 4`. -/
theorem C15_short_characters_scan_witness :
    _rl_find_next_mbchar (utf8Host combiningWidth) [[0x63], [0x61], [0x66], [0xC3, 0xA9]].flatten
        0 4 0
      = some ((((([[0x63], [0x61], [0x66], [0xC3, 0xA9]] : List (List Nat)).take
          (min (4 : Int).toNat
            ([[0x63], [0x61], [0x66], [0xC3, 0xA9]] : List (List Nat)).length)).flatten).length
            : Nat) : Int) :=
  (C15_short_characters_scan (utf8Host combiningWidth) (utf8Host_follows combiningWidth)
    [[0x63], [0x61], [0x66], [0xC3, 0xA9]] (by decide) 4).1

/-! ## A byte inserted at a character boundary -/

theorem flatten_last_not_lead (chars : List (List Nat)) (hv : ∀ c ∈ chars, utf8Char c = true) :
    ∀ b, chars.flatten.getLast? = some b → ¬ (0xC2 ≤ b ∧ b ≤ 0xF4) := by
  induction chars with
  | nil => intro b hb; simp at hb
  | cons c cs ih =>
    intro b hb
    rw [List.flatten_cons, List.getLast?_append] at hb
    cases hX : cs.flatten.getLast? with
    | none =>
      rw [hX] at hb
      exact (utf8Char_facts c (hv c (List.mem_cons_self c cs))).2.2 b (by simpa using hb)
    | some b1 =>
      rw [hX] at hb
      have hb1 : b1 = b := by simpa using hb
      rw [← hb1]
      exact ih (fun c1 hc1 => hv c1 (List.mem_cons_of_mem c hc1)) b1 hX

/-- Before the end of `A`, a step in `A ++ X` does not depend on `X` and does
not pass the end of `A`, when `A` does not end in a lead byte. -/
theorem nextB_within (P : Platform) (A X : List Nat) (hA : ∀ b ∈ A, b ≠ 0)
    (hlast : ∀ b, A.getLast? = some b → ¬ (0xC2 ≤ b ∧ b ≤ 0xF4)) (p : Nat) (hp : p < A.length) :
    nextB P (A ++ X) p = p + stepLen P (A.drop p ++ [])
    ∧ p + stepLen P (A.drop p ++ []) ≤ A.length := by
  have hlt : p < (A ++ X).length := by simp only [List.length_append]; omega
  rw [nextB_of_lt P _ _ hlt, List.drop_append_of_le_length (Nat.le_of_lt hp)]
  have hsplit : A = A.take p ++ A.drop p := (List.take_append_drop p A).symm
  have hlen : (A.drop p).length = A.length - p := List.length_drop p A
  rcases hd : A.drop p with _ | ⟨x, _ | ⟨y, t⟩⟩
  · rw [hd] at hlen; simp at hlen; omega
  · have hx : x ∈ A := by
      rw [hsplit, hd]; simp
    have hl : A.getLast? = some x := by
      rw [hsplit, hd]; simp
    rw [hd] at hlen
    simp only [List.length_singleton] at hlen
    rw [List.singleton_append, List.singleton_append,
      stepLen_single P x X (hA x hx) (hlast x hl), stepLen_single P x [] (hA x hx) (hlast x hl)]
    exact ⟨rfl, by omega⟩
  · rw [hd] at hlen
    simp only [List.length_cons] at hlen
    have h2 := stepLen_le_two P [x, y]
    simp only [List.cons_append, List.append_nil]
    rw [stepLen_two_local P x y (t ++ X), stepLen_two_local P x y t]
    exact ⟨rfl, by omega⟩

/-- The walk of `A ++ B` and the walk of `A ++ 0x80 :: B`, when `A` does not
end in a lead byte: the first reaches the end of `A` after some `j` steps, the
two agree up to there, and from there on the second is one step and one byte
ahead. -/
theorem insert_walk (P : Platform) (A B : List Nat) (hA : ∀ b ∈ A, b ≠ 0) (hB : ∀ b ∈ B, b ≠ 0)
    (hlast : ∀ b, A.getLast? = some b → ¬ (0xC2 ≤ b ∧ b ≤ 0xF4)) :
    ∃ j, bnd P (A ++ B) j = A.length
      ∧ (∀ k, k ≤ j → bnd P (A ++ 0x80 :: B) k = bnd P (A ++ B) k)
      ∧ (∀ k, j ≤ k → bnd P (A ++ 0x80 :: B) (k + 1) = bnd P (A ++ B) k + 1) := by
  have hs : ∀ b ∈ A ++ B, b ≠ 0 := by
    intro b hb
    rcases List.mem_append.mp hb with h | h
    · exact hA b h
    · exact hB b h
  have hle : A.length ≤ (A ++ B).length := by simp
  obtain ⟨j, _, hj1, hj2⟩ := adjust_walk P (A ++ B) hs A.length hle
  have hjA : bnd P (A ++ B) j = A.length := by
    cases j with
    | zero => have h0 : bnd P (A ++ B) 0 = 0 := rfl; omega
    | succ j0 =>
      have hlt := hj2 j0 (Nat.lt_succ_self j0)
      have := (nextB_within P A B hA hlast _ hlt).2
      have h1 := (nextB_within P A B hA hlast _ hlt).1
      have e : bnd P (A ++ B) (j0 + 1) = nextB P (A ++ B) (bnd P (A ++ B) j0) := rfl
      omega
  have hagree : ∀ k, k ≤ j → bnd P (A ++ 0x80 :: B) k = bnd P (A ++ B) k := by
    intro k
    induction k with
    | zero => intro _; rfl
    | succ k ih =>
      intro hk
      have hlt := hj2 k (by omega)
      rw [bnd, bnd, ih (by omega), (nextB_within P A B hA hlast _ hlt).1,
        (nextB_within P A (0x80 :: B) hA hlast _ hlt).1]
  have hshift : ∀ q, A.length ≤ q →
      nextB P (A ++ 0x80 :: B) (q + 1) = nextB P (A ++ B) q + 1 := by
    intro q hq
    have hd1 : (A ++ 0x80 :: B).drop (q + 1) = B.drop (q - A.length) := by
      have e : q + 1 = (A ++ [0x80]).length + (q - A.length) := by
        simp only [List.length_append, List.length_singleton]; omega
      have e2 : A ++ 0x80 :: B = (A ++ [0x80]) ++ B := by simp
      rw [e2, e, List.drop_append]
    have hd2 : (A ++ B).drop q = B.drop (q - A.length) := by
      have e : q = A.length + (q - A.length) := by omega
      conv_lhs => rw [e]
      exact List.drop_append _
    have hl1 : (A ++ 0x80 :: B).length = (A ++ B).length + 1 := by
      simp only [List.length_append, List.length_cons]; omega
    unfold nextB
    rw [hd1, hd2, hl1]
    by_cases hc : (A ++ B).length ≤ q
    · have hc1 : (A ++ B).length + 1 ≤ q + 1 := by omega
      simp only [hc, hc1, if_true]
    · have hc1 : ¬ ((A ++ B).length + 1 ≤ q + 1) := by omega
      simp only [hc, hc1, if_false]
      omega
  refine ⟨j, hjA, hagree, ?_⟩
  intro k hk
  induction k with
  | zero =>
    have hj0 : j = 0 := by omega
    subst hj0
    have h0 : bnd P (A ++ B) 0 = 0 := rfl
    have hA0 : A = [] := List.length_eq_zero.mp (by omega)
    subst hA0
    have e : bnd P ([] ++ 0x80 :: B) (0 + 1) = nextB P ([] ++ 0x80 :: B) 0 := rfl
    rw [e, nextB_of_lt P _ _ (by simp), h0]
    simp only [List.nil_append, List.drop_zero]
    rw [stepLen_single P 0x80 B (by decide) (by decide)]
  | succ k ih =>
    rcases Nat.eq_or_lt_of_le hk with h | h
    · have e : bnd P (A ++ 0x80 :: B) (k + 1 + 1)
          = nextB P (A ++ 0x80 :: B) (bnd P (A ++ 0x80 :: B) (k + 1)) := rfl
      have hlt : A.length < (A ++ 0x80 :: B).length := by simp
      have hd : (A ++ 0x80 :: B).drop A.length = 0x80 :: B := List.drop_left A _
      rw [e, hagree (k + 1) (by omega), ← h, hjA, nextB_of_lt P _ _ hlt, hd,
        stepLen_single P 0x80 B (by decide) (by decide)]
    · have hk1 : j ≤ k := by omega
      have hge : A.length ≤ bnd P (A ++ B) k := by
        have := bnd_mono P (A ++ B) hs hk1
        omega
      have e : bnd P (A ++ 0x80 :: B) (k + 1 + 1)
          = nextB P (A ++ 0x80 :: B) (bnd P (A ++ 0x80 :: B) (k + 1)) := rfl
      have e2 : bnd P (A ++ B) (k + 1) = nextB P (A ++ B) (bnd P (A ++ B) k) := rfl
      rw [e, ih hk1, hshift _ hge, e2]

/-- The scan of a valid UTF-8 string `s`, given as the concatenation of its
characters, and the scan of the string `s'` with the byte 0x80 inserted at the
end `i` of the first `m` characters, on every host: the scan of `s` reaches
`i` after some number `j` of steps, which need not be the number `m` of
characters; the two scans return the same positions for the first `j` steps; the next step of `s'`
returns `i + 1`; and from there on the scan of `k + 1` steps of `s'` returns
the position of `k` steps of `s` plus 1. -/
theorem inserted_byte_scan_relation (P : Platform) (chars : List (List Nat))
    (hv : ∀ c ∈ chars, utf8Char c = true) (m : Nat) :
    ∃ j : Nat,
      _rl_find_next_mbchar P chars.flatten 0 (j : Int) 0
        = some ((((chars.take m).flatten).length : Nat) : Int)
      ∧ (∀ k : Nat, k ≤ j → ∃ b,
          _rl_find_next_mbchar P chars.flatten 0 (k : Int) 0 = some b
          ∧ _rl_find_next_mbchar P ((chars.take m).flatten ++ 0x80 :: (chars.drop m).flatten)
              0 (k : Int) 0 = some b)
      ∧ _rl_find_next_mbchar P ((chars.take m).flatten ++ 0x80 :: (chars.drop m).flatten)
          0 ((j : Int) + 1) 0 = some (((((chars.take m).flatten).length : Nat) : Int) + 1)
      ∧ (∀ k : Nat, j ≤ k → ∃ b,
          _rl_find_next_mbchar P chars.flatten 0 (k : Int) 0 = some b
          ∧ _rl_find_next_mbchar P ((chars.take m).flatten ++ 0x80 :: (chars.drop m).flatten)
              0 ((k : Int) + 1) 0 = some (b + 1)) := by
  have hsplit : chars.flatten = (chars.take m).flatten ++ (chars.drop m).flatten := by
    rw [← List.flatten_append, List.take_append_drop]
  have hvA : ∀ c ∈ chars.take m, utf8Char c = true :=
    fun c hc => hv c (List.mem_of_mem_take hc)
  have hvB : ∀ c ∈ chars.drop m, utf8Char c = true :=
    fun c hc => hv c (List.mem_of_mem_drop hc)
  have hA := flatten_ne_zero _ hvA
  have hB := flatten_ne_zero _ hvB
  have hs := flatten_ne_zero _ hv
  have hs1 : ∀ b ∈ (chars.take m).flatten ++ 0x80 :: (chars.drop m).flatten, b ≠ 0 := by
    intro b hb
    rcases List.mem_append.mp hb with h | h
    · exact hA b h
    · rcases List.mem_cons.mp h with h1 | h1
      · omega
      · exact hB b h1
  obtain ⟨j, hj, hagree, hshift⟩ := insert_walk P _ _ hA hB (flatten_last_not_lead _ hvA)
  rw [← hsplit] at hj hagree hshift
  have hcast : ∀ k : Nat, ((k : Int) + 1) = ((k + 1 : Nat) : Int) := by intro k; push_cast; rfl
  refine ⟨j, ?_, ?_, ?_, ?_⟩
  · rw [find_next_zero P _ hs j, hj]
  · intro k hk
    exact ⟨_, find_next_zero P _ hs k, by rw [find_next_zero P _ hs1 k, hagree k hk]⟩
  · rw [hcast, find_next_zero P _ hs1 (j + 1), hshift j (Nat.le_refl j), hj]
    push_cast
    rfl
  · intro k hk
    refine ⟨_, find_next_zero P _ hs k, ?_⟩
    rw [hcast, find_next_zero P _ hs1 (k + 1), hshift k hk]
    push_cast
    rfl

/-! ## Shell quoting -/

theorem quoteLoop_eq (s : List Nat) (hs : ∀ b ∈ s, b ≠ 0) :
    ∀ out, quoteLoop s out
      = out ++ s.flatMap (fun c => if c = 39 then [39, 92, 39, 39] else [c]) := by
  induction s with
  | nil => intro out; simp [quoteLoop]
  | cons c rest ih =>
    intro out
    have hc : c ≠ 0 := hs c (List.mem_cons_self c rest)
    have hrest : ∀ b ∈ rest, b ≠ 0 := fun b hb => hs b (List.mem_cons_of_mem c hb)
    rw [quoteLoop]
    simp only [hc, if_false, List.flatMap_cons]
    by_cases h39 : c = 39
    · simp only [h39, if_true]
      rw [ih hrest]
      simp
    · simp only [h39, if_false]
      rw [ih hrest]
      simp

theorem quoted_length (s : List Nat) :
    (s.flatMap (fun c => if c = 39 then [39, 92, 39, 39] else [c])).length
      = s.length + 3 * s.count 39 := by
  induction s with
  | nil => simp
  | cons c rest ih =>
    rw [List.flatMap_cons, List.length_append, ih, List.count_cons]
    by_cases h39 : c = 39
    · simp [h39]; omega
    · simp [h39]; omega

/-- C16: for every NUL-free string, `sh_single_quote` returns a single quote,
then the characters of the string in order with every single quote replaced by
the four characters quote, backslash, quote, quote and every other character
unchanged, then a closing single quote; the length of the result is
`strlen (s) + 2 + 3 *` the number of single quotes in `s`. -/
theorem C16_single_quote_result (s : List Nat) (hs : ∀ b ∈ s, b ≠ 0) :
    sh_single_quote s
      = [39] ++ s.flatMap (fun c => if c = 39 then [39, 92, 39, 39] else [c]) ++ [39]
    ∧ (sh_single_quote s).length = strlen s + 2 + 3 * s.count 39 := by
  have h : sh_single_quote s
      = [39] ++ s.flatMap (fun c => if c = 39 then [39, 92, 39, 39] else [c]) ++ [39] := by
    unfold sh_single_quote
    rw [quoteLoop_eq s hs]
  refine ⟨h, ?_⟩
  rw [h]
  simp only [List.length_append, List.length_singleton, quoted_length, strlen]
  omega

/-- C16, witnessed on the string a, quote, b. -/
theorem C16_single_quote_result_witness :
    sh_single_quote [97, 39, 98] = [39, 97, 39, 92, 39, 39, 98, 39] :=
  (C16_single_quote_result [97, 39, 98] (by decide)).1

/-! ## Width cache -/

theorem memsizeLoop_spec :
    ∀ (fuel idx r : Nat), idx < 2 ^ (fuel + 8) →
      ∃ t, memsizeLoop (fuel + 1) idx r = some (r + t) ∧ idx < 2 ^ (t + 8)
        ∧ (t = 0 ∨ 2 ^ (t + 7) ≤ idx) := by
  intro fuel
  induction fuel with
  | zero =>
    intro idx r h
    have hc : ¬ (0x80 ≤ idx / 2) := by simp only [Nat.zero_add] at h; omega
    rw [memsizeLoop]
    simp only [hc, if_false]
    exact ⟨0, rfl, by simp only [Nat.zero_add] at h ⊢; omega, Or.inl rfl⟩
  | succ fuel ih =>
    intro idx r h
    rw [memsizeLoop]
    by_cases hc : 0x80 ≤ idx / 2
    · simp only [hc, if_true]
      have hp : 2 ^ (fuel + 1 + 8) = 2 * 2 ^ (fuel + 8) := by
        rw [show fuel + 1 + 8 = (fuel + 8) + 1 from by omega, pow_succ]; omega
      obtain ⟨t, ht, ht1, ht2⟩ := ih (idx / 2) (r + 1) (by omega)
      refine ⟨t + 1, ?_, ?_, Or.inr ?_⟩
      · rw [ht]; congr 1; omega
      · have hp1 : 2 ^ (t + 1 + 8) = 2 * 2 ^ (t + 8) := by
          rw [show t + 1 + 8 = (t + 8) + 1 from by omega, pow_succ]; omega
        omega
      · have hp2 : 2 ^ (t + 1 + 7) = 2 * 2 ^ (t + 7) := by
          rw [show t + 1 + 7 = (t + 7) + 1 from by omega, pow_succ]; omega
        rcases ht2 with h0 | h0
        · subst h0
          simp only [Nat.zero_add] at hp2 ⊢
          omega
        · omega
    · simp only [hc, if_false]
      exact ⟨0, rfl, by simp only [Nat.zero_add]; omega, Or.inl rfl⟩

theorem next_memsize_spec (idx : Nat) (h : idx < 2 ^ 16) :
    ∃ r, _rl_wcwidth_next_memsize idx = some (2 ^ r) ∧ idx < 2 ^ r ∧ 256 ≤ 2 ^ r
      ∧ ∀ r1, 256 ≤ 2 ^ r1 → idx < 2 ^ r1 → 2 ^ r ≤ 2 ^ r1 := by
  have hbig : idx < 2 ^ (64 + 8) := by
    have : (2 : Nat) ^ 16 ≤ 2 ^ (64 + 8) := Nat.pow_le_pow_right (by decide) (by decide)
    omega
  obtain ⟨t, ht, ht1, ht2⟩ := memsizeLoop_spec 64 idx 8 hbig
  have hr : 8 + t = t + 8 := by omega
  refine ⟨t + 8, ?_, ht1, ?_, ?_⟩
  · unfold _rl_wcwidth_next_memsize
    rw [ht, hr]
  · have : (2 : Nat) ^ 8 ≤ 2 ^ (t + 8) := Nat.pow_le_pow_right (by decide) (by omega)
    have h8 : (2 : Nat) ^ 8 = 256 := by decide
    omega
  · intro r1 h256 hlt
    rcases ht2 with h0 | h0
    · subst h0
      have h8 : (2 : Nat) ^ (0 + 8) = 256 := by decide
      omega
    · have hlt2 : 2 ^ (t + 7) < 2 ^ r1 := Nat.lt_of_le_of_lt h0 hlt
      have hexp : t + 7 < r1 := (Nat.pow_lt_pow_iff_right (by decide)).mp hlt2
      exact Nat.pow_le_pow_right (by decide) (by omega)

/-- The first part of `_rl_wcwidth_win32` yields an array that covers the
index, keeps the entries below the old size and fills the new ones with -1;
an unmeasured index reads -1 afterwards. -/
theorem growWidths_spec (S : WidthStatics) (idx : Nat) (h : idx < 2 ^ 16) :
    ∃ grown, growWidths S idx = some grown ∧ idx < grown.2
      ∧ (unmeasured S idx → grown.1 idx = -1)
      ∧ (∀ mem, S.pwcwidths = some mem →
          S.wcwidths_size ≤ grown.2
          ∧ (∀ i, i < S.wcwidths_size → grown.1 i = mem i)
          ∧ (∀ i, S.wcwidths_size ≤ i → i < grown.2 → grown.1 i = -1)) := by
  obtain ⟨r, hr, hr1, _, _⟩ := next_memsize_spec idx h
  unfold growWidths unmeasured
  cases hp : S.pwcwidths with
  | none =>
    simp only [hr]
    refine ⟨_, rfl, hr1, ?_, ?_⟩
    · intro _
      simp only [hr1, if_true]
    · intro mem hm
      exact absurd hm (by simp)
  | some mem0 =>
    by_cases hsz : S.wcwidths_size ≤ idx
    · simp only [hsz, if_true, hr]
      refine ⟨_, rfl, hr1, ?_, ?_⟩
      · intro _
        simp only [hsz, hr1, and_self, if_true]
      · intro mem hm
        have hmm : mem0 = mem := Option.some.inj hm
        subst hmm
        refine ⟨by omega, ?_, ?_⟩
        · intro i hi
          have : ¬ (S.wcwidths_size ≤ i ∧ i < 2 ^ r) := by omega
          simp only [this, if_false]
        · intro i hi1 hi2
          simp only [hi1, hi2, and_self, if_true]
    · simp only [hsz, if_false]
      refine ⟨_, rfl, by omega, ?_, ?_⟩
      · intro hun
        rcases hun with h1 | h1
        · exact h1.elim
        · exact h1
      · intro mem hm
        have hmm : mem0 = mem := Option.some.inj hm
        subst hmm
        exact ⟨Nat.le_refl _, fun i _ => rfl, fun i hi1 hi2 => by omega⟩

/-- C18: for every index below 2^16, the range of `wchar_t`,
`_rl_wcwidth_next_memsize (idx)` is a power of two greater than `idx`, at least
256, and the smallest power of two with these two properties; hence after
`_rl_wcwidth_win32` has allocated or enlarged the cache, whatever its state
was, the array exists and `idx` is below its size. -/
theorem C18_cache_capacity (idx : Nat) (h : idx < 2 ^ 16) :
    (∃ r, _rl_wcwidth_next_memsize idx = some (2 ^ r) ∧ idx < 2 ^ r ∧ 256 ≤ 2 ^ r
      ∧ ∀ r1, 256 ≤ 2 ^ r1 → idx < 2 ^ r1 → 2 ^ r ≤ 2 ^ r1)
    ∧ (∀ S : WidthStatics, ∃ grown, growWidths S idx = some grown ∧ idx < grown.2)
    ∧ (∀ (σ : Type) (K : Console σ) (S : WidthStatics) (w : World σ),
        ∃ res, _rl_wcwidth_win32 K S w idx = some res
          ∧ res.2.1.pwcwidths ≠ none ∧ idx < res.2.1.wcwidths_size) := by
  refine ⟨next_memsize_spec idx h, ?_, ?_⟩
  · intro S
    obtain ⟨grown, hg, hg1, _⟩ := growWidths_spec S idx h
    exact ⟨grown, hg, hg1⟩
  · intro σ K S w
    obtain ⟨grown, hg, hg1, _⟩ := growWidths_spec S idx h
    unfold _rl_wcwidth_win32
    simp only [hg]
    split
    · split
      · exact ⟨_, rfl, by simp, hg1⟩
      · exact ⟨_, rfl, by simp, hg1⟩
    · exact ⟨_, rfl, by simp, hg1⟩

/-- C18, witnessed on the index 0x301. -/
theorem C18_cache_capacity_witness :
    ∃ r, _rl_wcwidth_next_memsize 0x301 = some (2 ^ r) ∧ 0x301 < 2 ^ r ∧ 256 ≤ 2 ^ r
      ∧ ∀ r1, 256 ≤ 2 ^ r1 → 0x301 < 2 ^ r1 → 2 ^ r ≤ 2 ^ r1 :=
  (C18_cache_capacity 0x301 (by decide)).1

theorem measureWrite_count {σ : Type} (K : Console σ) (w : World σ) (wc : Nat) (x1 : Int) :
    (measureWrite K w wc x1).2.calls.count (ConsoleCall.write [wc])
      = w.calls.count (ConsoleCall.write [wc]) + 1 := by
  cases h : (K.GetConsoleScreenBufferInfo (K.WriteConsoleW [wc] w.state)).1 <;>
    simp [measureWrite, h, List.count_append, List.count_cons]

theorem measureOpened_count {σ : Type} (K : Console σ) (w : World σ) (wc : Nat) (width : Int)
    (h : (measureOpened K w wc).1 = some width) :
    (measureOpened K w wc).2.calls.count (ConsoleCall.write [wc])
      = w.calls.count (ConsoleCall.write [wc]) + 1 := by
  revert h
  unfold measureOpened
  simp only []
  cases hg1 : (K.GetConsoleScreenBufferInfo w.state).1 with
  | none => intro h; simp at h
  | some info1 =>
    by_cases hcond : info1.2 - 5 ≤ info1.1
    · simp only [hcond, if_true]
      cases hg2 : (K.GetConsoleScreenBufferInfo (K.WriteConsoleW [0x0A, 0]
          (K.GetConsoleScreenBufferInfo w.state).2)).1 with
      | none => intro h; simp at h
      | some info1b =>
        intro _
        simp [measureWrite_count, List.count_append, List.count_cons]
    · simp only [hcond, if_false]
      intro _
      simp [measureWrite_count, List.count_append, List.count_cons]

/-- A measurement that yields a width has written the character to the console
exactly once. -/
theorem measureWidth_count {σ : Type} (K : Console σ) (hc : Bool) (w : World σ) (wc : Nat)
    (width : Int) (h : (measureWidth K hc w wc).1 = some width) :
    (measureWidth K hc w wc).2.2.calls.count (ConsoleCall.write [wc])
      = w.calls.count (ConsoleCall.write [wc]) + 1 := by
  revert h
  unfold measureWidth
  cases hc with
  | true =>
    simp only [if_true]
    exact fun h => measureOpened_count K w wc width h
  | false =>
    simp only [Bool.false_eq_true, if_false]
    cases hcr : (K.CreateConsoleScreenBuffer w.state).1 with
    | false => intro h; simp at h
    | true =>
      simp only [Bool.true_eq_false, if_false]
      intro h
      rw [measureOpened_count K _ wc width h]
      simp [List.count_append, List.count_cons]

/-- C12 as stated fails: the cache is empty and the cursor of the console
cannot be read the first time; the first call for the character 0x41 returns
-1 and the second call, which measures again, returns 1. -/
theorem C12_counterexample :
    unmeasured initialStatics 0x41
    ∧ (_rl_wcwidth_win32 flakyConsole initialStatics ⟨(0, 0), []⟩ 0x41).map (fun r => r.1)
        = some (-1)
    ∧ ((_rl_wcwidth_win32 flakyConsole initialStatics ⟨(0, 0), []⟩ 0x41).bind
        (fun r => _rl_wcwidth_win32 flakyConsole r.2.1 r.2.2 0x41)).map (fun r => r.1)
        = some 1 := by
  refine ⟨trivial, by decide, by decide⟩

/-- C12, amended: for every character of the range of `wchar_t` not yet
measured, every state of the cache and every console, the first call returns;
and when it returns a measured width, a value other than -1, the second call
returns the same value and leaves the cache and the console, with the record
of the calls made to it, as they were: the character has been written to the
console exactly once across the two calls. -/
theorem C12_cache_stability {σ : Type} (K : Console σ) (S : WidthStatics) (w : World σ)
    (wc : Nat) (hwc : wc < 2 ^ 16) (hun : unmeasured S wc) :
    ∃ r1 S1 w1, _rl_wcwidth_win32 K S w wc = some (r1, S1, w1)
      ∧ (r1 ≠ -1 →
          _rl_wcwidth_win32 K S1 w1 wc = some (r1, S1, w1)
          ∧ w1.calls.count (ConsoleCall.write [wc])
              = w.calls.count (ConsoleCall.write [wc]) + 1) := by
  obtain ⟨grown, hg, hlt, hm1, _⟩ := growWidths_spec S wc hwc
  have hread := hm1 hun
  unfold _rl_wcwidth_win32
  simp only [hg, hread, if_true]
  cases hmeas : (measureWidth K S.hidden_console w wc).1 with
  | none => exact ⟨-1, _, _, rfl, fun h => absurd rfl h⟩
  | some width =>
    refine ⟨width, _, _, rfl, ?_⟩
    intro hne
    refine ⟨?_, measureWidth_count K S.hidden_console w wc width hmeas⟩
    have hnle : ¬ (grown.2 ≤ wc) := by omega
    simp [growWidths, hnle, hne]

/-- C12 amended, witnessed on the empty cache and the console that always
answers. -/
theorem C12_cache_stability_witness :
    ∃ r1 S1 w1, _rl_wcwidth_win32 steadyConsole initialStatics ⟨0, []⟩ 0x41 = some (r1, S1, w1)
      ∧ (r1 ≠ -1 →
          _rl_wcwidth_win32 steadyConsole S1 w1 0x41 = some (r1, S1, w1)
          ∧ w1.calls.count (ConsoleCall.write [0x41])
              = (⟨0, []⟩ : World Int).calls.count (ConsoleCall.write [0x41]) + 1) :=
  C12_cache_stability steadyConsole initialStatics ⟨0, []⟩ 0x41 (by decide) trivial

/-- C13: for every character of the range of `wchar_t` whose width is not yet
in the cache, every state of the cache and every console, if the measurement
fails (the console cannot be created or its cursor cannot be read), the call
returns -1, the entry of the character is -1 afterwards, and every entry
below the previous size of the cache is as it was. -/
theorem C13_probe_failure {σ : Type} (K : Console σ) (S : WidthStatics) (w : World σ)
    (wc : Nat) (hwc : wc < 2 ^ 16) (hun : unmeasured S wc)
    (hfail : (measureWidth K S.hidden_console w wc).1 = none) :
    ∃ S1 w1 mem1, _rl_wcwidth_win32 K S w wc = some (-1, S1, w1)
      ∧ S1.pwcwidths = some mem1 ∧ mem1 wc = -1
      ∧ (∀ mem0, S.pwcwidths = some mem0 → ∀ i, i < S.wcwidths_size → mem1 i = mem0 i) := by
  obtain ⟨grown, hg, hlt, hm1, hm2⟩ := growWidths_spec S wc hwc
  have hread := hm1 hun
  unfold _rl_wcwidth_win32
  simp only [hg, hread, if_true, hfail]
  exact ⟨_, _, grown.1, rfl, rfl, hread, fun mem0 h0 i hi => (hm2 mem0 h0).2.1 i hi⟩

/-- C13, witnessed on the empty cache and the console whose cursor cannot be
read the first time. -/
theorem C13_probe_failure_witness :
    ∃ S1 w1 mem1, _rl_wcwidth_win32 flakyConsole initialStatics ⟨(0, 0), []⟩ 0x41
        = some (-1, S1, w1)
      ∧ S1.pwcwidths = some mem1 ∧ mem1 0x41 = -1
      ∧ (∀ mem0, initialStatics.pwcwidths = some mem0 →
          ∀ i, i < initialStatics.wcwidths_size → mem1 i = mem0 i) :=
  C13_probe_failure flakyConsole initialStatics ⟨(0, 0), []⟩ 0x41 (by decide) trivial
    (by decide)

/-- C17: for every state of the cache with an entry for `c` (the array exists
and `c` is below its size), measured or not, and every call for a character
`d ≠ c` of the range of `wchar_t`, on every console: the call returns, the
entry of `c` is unchanged, the size does not decrease, every entry below the
old size other than that of `d` keeps its value, and every entry from the old
size up to the new size other than that of `d` is -1; the enlarging step
itself keeps every entry below the old size and sets every entry from the old
size up to the new size to -1. -/
theorem C17_cache_isolation {σ : Type} (K : Console σ) (S : WidthStatics) (w : World σ)
    (c d : Nat) (hd : d < 2 ^ 16) (hcd : d ≠ c) (mem : Nat → Int)
    (hmem : S.pwcwidths = some mem) (hc : c < S.wcwidths_size) :
    (∃ r S1 w1 mem1, _rl_wcwidth_win32 K S w d = some (r, S1, w1)
      ∧ S1.pwcwidths = some mem1
      ∧ mem1 c = mem c
      ∧ S.wcwidths_size ≤ S1.wcwidths_size
      ∧ (∀ i, i < S.wcwidths_size → i ≠ d → mem1 i = mem i)
      ∧ (∀ i, S.wcwidths_size ≤ i → i < S1.wcwidths_size → i ≠ d → mem1 i = -1))
    ∧ (∃ grown, growWidths S d = some grown
      ∧ (∀ i, i < S.wcwidths_size → grown.1 i = mem i)
      ∧ (∀ i, S.wcwidths_size ≤ i → i < grown.2 → grown.1 i = -1)) := by
  obtain ⟨grown, hg, hlt, _, hm2⟩ := growWidths_spec S d hd
  obtain ⟨hsize, hkeep, hfill⟩ := hm2 mem hmem
  refine ⟨?_, grown, hg, hkeep, hfill⟩
  have hcd1 : ¬ (c = d) := fun h => hcd h.symm
  unfold _rl_wcwidth_win32
  simp only [hg]
  split
  · split
    · exact ⟨_, _, _, grown.1, rfl, rfl, hkeep c hc, hsize, fun i hi _ => hkeep i hi,
        fun i h1 h2 _ => hfill i h1 h2⟩
    · refine ⟨_, _, _, _, rfl, rfl, ?_, hsize, ?_, ?_⟩
      · simp only [hcd1, if_false]; exact hkeep c hc
      · intro i hi hne
        simp only [hne, if_false]; exact hkeep i hi
      · intro i h1 h2 hne
        simp only [hne, if_false]; exact hfill i h1 h2
  · exact ⟨_, _, _, grown.1, rfl, rfl, hkeep c hc, hsize, fun i hi _ => hkeep i hi,
      fun i h1 h2 _ => hfill i h1 h2⟩

/-- C17, witnessed on a cache of 256 entries that holds the width 1 for the
character 0x41, and a call for U+0301, which enlarges it. -/
theorem C17_cache_isolation_witness :
    ∃ r S1 w1 mem1,
      _rl_wcwidth_win32 steadyConsole
          ⟨true, some (fun i => if i = 0x41 then 1 else -1), 256⟩ ⟨0, []⟩ 0x301
        = some (r, S1, w1)
      ∧ S1.pwcwidths = some mem1
      ∧ mem1 0x41 = (fun i => if i = 0x41 then (1 : Int) else -1) 0x41
      ∧ (⟨true, some (fun i => if i = 0x41 then 1 else -1), 256⟩ : WidthStatics).wcwidths_size
          ≤ S1.wcwidths_size
      ∧ (∀ i, i < (⟨true, some (fun i => if i = 0x41 then 1 else -1), 256⟩
            : WidthStatics).wcwidths_size → i ≠ 0x301 →
          mem1 i = (fun i => if i = 0x41 then (1 : Int) else -1) i)
      ∧ (∀ i, (⟨true, some (fun i => if i = 0x41 then 1 else -1), 256⟩
            : WidthStatics).wcwidths_size ≤ i → i < S1.wcwidths_size → i ≠ 0x301 →
          mem1 i = -1) :=
  (C17_cache_isolation steadyConsole ⟨true, some (fun i => if i = 0x41 then 1 else -1), 256⟩
    ⟨0, []⟩ 0x41 0x301 (by decide) (by decide) (fun i => if i = 0x41 then 1 else -1) rfl
    (by decide)).1

/-! ## Forward movement adds up -/

/-- C21: for a NUL-free string of arbitrary bytes, on every host, and all
`j, k ≥ 0`: the forward scan of `j` steps from offset 0 returns a position
`p`, the scan of `k` steps from `p` returns a position `r`, and the scan of
`j + k` steps from offset 0 returns the same `r`; the offset adjuster returns
0 at `p`. -/
theorem C21_forward_movement_adds_up (P : Platform) (s : List Nat) (hs : ∀ b ∈ s, b ≠ 0)
    (j k : Int) (hj : 0 ≤ j) (hk : 0 ≤ k) :
    ∃ p r, _rl_find_next_mbchar P s 0 j 0 = some p
      ∧ _rl_find_next_mbchar P s p k 0 = some r
      ∧ _rl_find_next_mbchar P s 0 (j + k) 0 = some r
      ∧ _rl_adjust_point P s p 0 = some (0, 0) := by
  have hsum : (j + k).toNat = j.toNat + k.toNat := by omega
  have hle := bnd_le_length P s hs j.toNat
  have hsame : ∀ i, bnd P s j.toNat ≤ bnd P s i → (∀ m, m < i → bnd P s m < bnd P s j.toNat) →
      bnd P s i = bnd P s j.toNat := by
    intro i hi1 hi2
    have hij : i ≤ j.toNat := by
      by_contra hc
      have := hi2 j.toNat (Nat.not_le.mp hc)
      omega
    have := bnd_mono P s hs hij
    omega
  refine ⟨_, _, find_next_zero_int P s hs j, ?_, find_next_zero_int P s hs (j + k), ?_⟩
  · by_cases hk0 : k = 0
    · subst hk0
      have hz : (j + 0).toNat = j.toNat := by omega
      rw [hz]
      simp [_rl_find_next_mbchar, _rl_find_next_mbchar_internal]
    · obtain ⟨i, hi1, hi2, _, hr⟩ :=
        find_next_walk P s hs (bnd P s j.toNat) hle k.toNat (by omega)
      have hb := hsame i hi1 hi2
      have hnlt : ¬ (bnd P s j.toNat < bnd P s i) := by omega
      have hkk : ((k.toNat : Nat) : Int) = k := by omega
      rw [hkk] at hr
      simp only [hnlt, if_false] at hr
      rw [hr, hsum, bnd_add_congr P s hb]
  · obtain ⟨i, hi1, hi2, hadj, _⟩ :=
      find_next_walk P s hs (bnd P s j.toNat) hle 1 (Nat.le_refl 1)
    have hb := hsame i hi1 hi2
    rw [hadj, hb]
    simp

/-- C21, witnessed on "café": two steps and then two more. -/
theorem C21_forward_movement_adds_up_witness :
    ∃ p r, _rl_find_next_mbchar (utf8Host combiningWidth) cafe 0 2 0 = some p
      ∧ _rl_find_next_mbchar (utf8Host combiningWidth) cafe p 2 0 = some r
      ∧ _rl_find_next_mbchar (utf8Host combiningWidth) cafe 0 (2 + 2) 0 = some r
      ∧ _rl_adjust_point (utf8Host combiningWidth) cafe p 0 = some (0, 0) :=
  C21_forward_movement_adds_up (utf8Host combiningWidth) cafe (by decide) 2 2 (by decide)
    (by decide)

/-! ## The buffer of the quoting function -/

theorem storeByte_of_lt (size : Nat) (out : List Nat) (c : Nat) (h : out.length < size) :
    storeByte size out c = some (out ++ [c]) := by
  simp [storeByte, h]

/-- When the buffer has room for what the loop writes, no write of the loop
falls outside it, and the loop writes what the loop without a buffer
writes. -/
theorem quoteLoopIn_eq (size : Nat) (s : List Nat) (hs : ∀ b ∈ s, b ≠ 0) :
    ∀ out, out.length
        + (s.flatMap (fun c => if c = 39 then [39, 92, 39, 39] else [c])).length ≤ size →
      quoteLoopIn size s out
        = some (out ++ s.flatMap (fun c => if c = 39 then [39, 92, 39, 39] else [c])) := by
  induction s with
  | nil => intro out _; simp [quoteLoopIn]
  | cons c rest ih =>
    intro out hroom
    have hc : c ≠ 0 := hs c (List.mem_cons_self c rest)
    have hrest : ∀ b ∈ rest, b ≠ 0 := fun b hb => hs b (List.mem_cons_of_mem c hb)
    rw [quoteLoopIn]
    simp only [hc, if_false]
    rw [List.flatMap_cons, List.length_append] at hroom
    by_cases h39 : c = 39
    · simp only [h39, if_true, List.length_cons, List.length_nil] at hroom ⊢
      rw [storeByte_of_lt size out 39 (by omega)]
      simp only [Option.bind_eq_bind, Option.some_bind]
      rw [storeByte_of_lt size _ 92 (by simp only [List.length_append, List.length_singleton]; omega)]
      simp only [Option.some_bind]
      rw [storeByte_of_lt size _ 39 (by simp only [List.length_append, List.length_singleton]; omega)]
      simp only [Option.some_bind]
      rw [storeByte_of_lt size _ 39 (by simp only [List.length_append, List.length_singleton]; omega)]
      simp only [Option.some_bind]
      rw [ih hrest _ (by simp only [List.length_append, List.length_singleton]; omega)]
      simp
    · simp only [h39, if_false, List.length_singleton] at hroom ⊢
      rw [storeByte_of_lt size out c (by omega)]
      simp only [Option.bind_eq_bind, Option.some_bind]
      rw [ih hrest _ (by simp only [List.length_append, List.length_singleton]; omega)]
      simp [h39]

/-- C22: for every NUL-free string, no write of `sh_single_quote` falls
outside the buffer of `3 + 4 * strlen (s)` bytes it allocates: with every
write checked, the function writes the quoted string and the terminating NUL;
the number of bytes written, the NUL included, is at most
`3 + 4 * strlen (s)`, and it equals that size exactly when every character of
`s` is a single quote. -/
theorem C22_single_quote_buffer_bound (s : List Nat) (hs : ∀ b ∈ s, b ≠ 0) :
    sh_single_quote_in_buffer s = some (sh_single_quote s ++ [0])
    ∧ (sh_single_quote s ++ [0]).length ≤ 3 + 4 * strlen s
    ∧ ((sh_single_quote s ++ [0]).length = 3 + 4 * strlen s ↔ ∀ c ∈ s, c = 39) := by
  have hq : sh_single_quote s
      = [39] ++ s.flatMap (fun c => if c = 39 then [39, 92, 39, 39] else [c]) ++ [39] := by
    unfold sh_single_quote
    rw [quoteLoop_eq s hs]
  have hcount : s.count 39 ≤ s.length := List.count_le_length 39 s
  have hlen : (sh_single_quote s ++ [0]).length = s.length + 3 + 3 * s.count 39 := by
    rw [hq]
    simp only [List.length_append, List.length_singleton, quoted_length]
    omega
  refine ⟨?_, ?_, ?_⟩
  · unfold sh_single_quote_in_buffer
    simp only [strlen]
    rw [storeByte_of_lt _ [] 39 (by simp)]
    simp only [Option.bind_eq_bind, Option.some_bind, List.nil_append]
    rw [quoteLoopIn_eq _ s hs [39] (by
      simp only [List.length_singleton, quoted_length]; omega)]
    simp only [Option.some_bind]
    rw [storeByte_of_lt _ _ 39 (by
      simp only [List.length_append, List.length_singleton, quoted_length]; omega)]
    simp only [Option.some_bind]
    rw [storeByte_of_lt _ _ 0 (by
      simp only [List.length_append, List.length_singleton, quoted_length]; omega)]
    rw [hq]
  · rw [hlen]
    simp only [strlen]
    omega
  · rw [hlen]
    simp only [strlen]
    constructor
    · intro h
      have hall : s.count 39 = s.length := by omega
      intro c hc
      exact ((List.count_eq_length.mp hall) c hc).symm
    · intro h
      have hall : s.count 39 = s.length :=
        List.count_eq_length.mpr (fun b hb => (h b hb).symm)
      omega

/-- C22, witnessed on the string of two single quotes, which fills the
buffer of 11 bytes. -/
theorem C22_single_quote_buffer_bound_witness :
    sh_single_quote_in_buffer [39, 39] = some (sh_single_quote [39, 39] ++ [0])
    ∧ (sh_single_quote [39, 39] ++ [0]).length ≤ 3 + 4 * strlen [39, 39]
    ∧ ((sh_single_quote [39, 39] ++ [0]).length = 3 + 4 * strlen [39, 39]
        ↔ ∀ c ∈ ([39, 39] : List Nat), c = 39) :=
  C22_single_quote_buffer_bound [39, 39] (by decide)

/-! ## Round trip through the encoder and the decoder -/

/-- On a host where the call `WideCharToMultiByte` fails for every character,
the encoder accepts no codepoint. -/
theorem encoder_rejects_when_call_fails (P : Platform)
    (hfail : ∀ wc mb_max : Nat, (P.WideCharToMultiByte wc mb_max).1.length = 0) (c : Nat) :
    (_rl_utf8_wcrtomb P c).1 = -1 := by
  simp [_rl_utf8_wcrtomb, __wcrtomb_utf8, hfail]

/-- C11: the claim fails on the valid UTF-8 string "€a" (E2 82 AC 61), whose
character boundaries are 0, 3 and 4, with the byte 0x80 inserted at the
boundary 3.  The claim has the forward scan of E2 82 AC 80 61 return 0, 3, 4,
5; on a host that follows UTF-8 it returns 0, 1, 2, 3, 4, 5, and on no host is
its first step 3: the decoder hands only the first two bytes of "€" to the
converter, so the three-byte character is scanned in smaller steps. -/
theorem C11_three_byte_character_before_inserted_byte :
    utf8Char euro = true ∧ utf8Char [0x61] = true
    ∧ (([euro, [0x61]].take 1).flatten).length = 3
    ∧ ([euro, [0x61]].take 1).flatten ++ 0x80 :: ([euro, [0x61]].drop 1).flatten
        = [0xE2, 0x82, 0xAC, 0x80, 0x61]
    ∧ (List.range 6).map (fun (k : Nat) =>
          _rl_find_next_mbchar (utf8Host combiningWidth) [0xE2, 0x82, 0xAC, 0x80, 0x61] 0 (k : Int) 0)
        = [some 0, some 1, some 2, some 3, some 4, some 5]
    ∧ ∀ P : Platform, _rl_find_next_mbchar P [0xE2, 0x82, 0xAC, 0x80, 0x61] 0 1 0 ≠ some 3 := by
  refine ⟨by decide, by decide, by decide, by decide, by decide, ?_⟩
  intro P
  have h := find_next_zero P [0xE2, 0x82, 0xAC, 0x80, 0x61] (by decide) 1
  have h1 : bnd P [0xE2, 0x82, 0xAC, 0x80, 0x61] 1 ≤ 2 := by
    have := stepLen_le_two P [0xE2, 0x82, 0xAC, 0x80, 0x61]
    simpa [bnd, nextB] using this
  simp only [Nat.cast_one] at h
  rw [h]
  intro hc
  have hc1 := Option.some.inj hc
  omega

end Readline
